import Mathlib

/-
  Verification development for the snapshot-generation core of the
  fhir-snapshot-generator repository.

  The TypeScript sources are shallowly embedded in Lean:
  strings are lists of characters, JS objects that the algorithms
  inspect are structured records (with an `others` association list for
  the fields the code only copies or overwrites), exceptions become
  `Except`/`Option` results, and the mutable tree built by `toTree`
  becomes a purely functional tree threaded through the fold together
  with the id-to-node map (a JS `Map` holding references is rendered as
  an association list from ids to stable child-index paths; paths stay
  valid because the algorithm only ever appends children).
-/

namespace FSG

/-! ## Strings as lists of characters -/

abbrev Str := List Char

def str (s : String) : Str := s.data

/-- JS `String.prototype.split` with a single-character separator. -/
def splitOnChar (c : Char) : Str → List Str
  | [] => [[]]
  | x :: xs =>
    match splitOnChar c xs with
    | [] => [[x]]
    | s :: ss => if x = c then [] :: s :: ss else (x :: s) :: ss

/-- JS `segments.join(sep)` with a single-character separator. -/
def joinSep (c : Char) : List Str → Str
  | [] => []
  | [s] => s
  | s :: ss => s ++ c :: joinSep c ss

/-- `fullId.split('.')` as used throughout the tree code. -/
def splitDots (s : Str) : List Str := splitOnChar '.' s

def joinDots (segs : List Str) : Str := joinSep '.' segs

/-- `segment.split(':')[0]` — strip a slice name from one id segment. -/
def stripSlice (seg : Str) : Str := (splitOnChar ':' seg).headD []

/-- JS truthiness of an optional string field (empty string is falsy). -/
def jsTruthyStr (o : Option Str) : Bool :=
  match o with
  | some s => !s.isEmpty
  | none => false

def leadingNat (s : Str) : Option Nat :=
  let ds := s.takeWhile Char.isDigit
  if ds.isEmpty then none
  else some (ds.foldl (fun acc c => acc * 10 + (c.toNat - 48)) 0)

/-- JS `parseInt` restricted to radix 10 (returns `none` for NaN). -/
def jsParseInt (s : Str) : Option Int :=
  let t := s.dropWhile Char.isWhitespace
  match t with
  | '-' :: rest => (leadingNat rest).map (fun n => -(n : Int))
  | '+' :: rest => (leadingNat rest).map Int.ofNat
  | _ => (leadingNat t).map Int.ofNat

/-! ## JSON-like values

The merge logic never inspects values more than two levels deep
(array entries are strings or flat objects), so values are modelled to
that depth; deeper structure never flows through the studied code. -/

inductive Atom where
  | aStr (s : Str)
  | aNum (n : Int)
  | aBool (b : Bool)
  | aNull
deriving DecidableEq

inductive Item where
  | iAtom (a : Atom)
  | iObj (fields : List (Str × Atom))
deriving DecidableEq

inductive Value where
  | vUndef
  | vAtom (a : Atom)
  | vObj (fields : List (Str × Atom))
  | vArr (items : List Item)
deriving DecidableEq

/-! ## ElementDefinition

Structured rendering of the element objects: the fields the engine
reads structurally are explicit; every other field (short, min, max,
binding, fixed values, ...) lives in the `others` association list and
is only copied or overwritten, matching how the code treats unknown
keys. -/

structure ElementDefinitionType where
  code : Str
  profile : Option (List Str) := none
deriving DecidableEq

structure BaseInfo where
  path : Str
  max : Option Str := none
deriving DecidableEq

structure ElementDefinition where
  id : Str
  path : Str
  sliceName : Option Str := none
  slicing : Option Value := none
  base : Option BaseInfo := none
  type : Option (List ElementDefinitionType) := none
  contentReference : Option Str := none
  mustSupport : Option Bool := none
  extension : Option (List Item) := none
  constraint : Option (List Item) := none
  condition : Option (List Item) := none
  mapping : Option (List Item) := none
  others : List (Str × Value) := []
deriving DecidableEq

/-! ## Tree nodes -/

inductive NodeType where
  | element
  | array
  | poly
  | slice
  | resliced
  | headslice
deriving DecidableEq

mutual
inductive FhirTreeNode where
  | mk (id : Str) (path : Str) (idSegments : List Str) (pathSegments : List Str)
       (nodeType : NodeType) (definition : Option ElementDefinition)
       (sliceName : Option Str) (children : NodeList)
inductive NodeList where
  | nil
  | cons (head : FhirTreeNode) (tail : NodeList)
end

def FhirTreeNode.id : FhirTreeNode → Str
  | .mk i _ _ _ _ _ _ _ => i

def FhirTreeNode.path : FhirTreeNode → Str
  | .mk _ p _ _ _ _ _ _ => p

def FhirTreeNode.idSegments : FhirTreeNode → List Str
  | .mk _ _ is _ _ _ _ _ => is

def FhirTreeNode.pathSegments : FhirTreeNode → List Str
  | .mk _ _ _ ps _ _ _ _ => ps

def FhirTreeNode.nodeType : FhirTreeNode → NodeType
  | .mk _ _ _ _ nt _ _ _ => nt

def FhirTreeNode.definition : FhirTreeNode → Option ElementDefinition
  | .mk _ _ _ _ _ d _ _ => d

def FhirTreeNode.sliceName : FhirTreeNode → Option Str
  | .mk _ _ _ _ _ _ sn _ => sn

def FhirTreeNode.children : FhirTreeNode → NodeList
  | .mk _ _ _ _ _ _ _ cs => cs

def FhirTreeNode.withChildren : FhirTreeNode → NodeList → FhirTreeNode
  | .mk i p is ps nt d sn _, cs => .mk i p is ps nt d sn cs

def NodeList.length : NodeList → Nat
  | .nil => 0
  | .cons _ tl => tl.length + 1

def NodeList.headOpt : NodeList → Option FhirTreeNode
  | .nil => none
  | .cons hd _ => some hd

def NodeList.get : NodeList → Nat → Option FhirTreeNode
  | .nil, _ => none
  | .cons hd _, 0 => some hd
  | .cons _ tl, n + 1 => tl.get n

def NodeList.append : NodeList → NodeList → NodeList
  | .nil, ys => ys
  | .cons hd tl, ys => .cons hd (tl.append ys)

def NodeList.push (xs : NodeList) (n : FhirTreeNode) : NodeList :=
  xs.append (.cons n .nil)

def NodeList.modifyIdx : NodeList → Nat → (FhirTreeNode → FhirTreeNode) → NodeList
  | .nil, _, _ => .nil
  | .cons hd tl, 0, f => .cons (f hd) tl
  | .cons hd tl, n + 1, f => .cons hd (tl.modifyIdx n f)

def NodeList.findOpt : NodeList → (FhirTreeNode → Bool) → Option FhirTreeNode
  | .nil, _ => none
  | .cons hd tl, p => if p hd then some hd else tl.findOpt p

def NodeList.ofList : List FhirTreeNode → NodeList
  | [] => .nil
  | x :: xs => .cons x (ofList xs)

/-- Append a child at the end of a node's child list (JS `children.push`). -/
def pushChild (c : FhirTreeNode) (n : FhirTreeNode) : FhirTreeNode :=
  n.withChildren (n.children.push c)

/-! ## Element classifier (`toNodeType`), `isNodeSliceable` -/

def jsBaseMaxMany (b : Option BaseInfo) : Bool :=
  match b with
  | some bi =>
    match bi.max with
    | some m =>
      if m = str "*" then true
      else
        match jsParseInt m with
        | some n => n > 1
        | none => false
    | none => false
  | none => false

/-- Classify one element into a node kind (src/utils/element/toNodeType.ts). -/
def toNodeType (element : ElementDefinition) : NodeType :=
  if (str "[x]").isSuffixOf element.id then .poly
  else if jsTruthyStr element.sliceName then
    (if element.slicing.isSome then .resliced else .slice)
  else if jsBaseMaxMany element.base then .array
  else .element

/-- Sliceable node kinds (src/utils/tree/isNodeSliceable.ts). -/
def isNodeSliceable (node : FhirTreeNode) : Bool :=
  node.nodeType = .array ∨ node.nodeType = .poly ∨ node.nodeType = .resliced

def isSliceableType (nt : NodeType) : Bool :=
  nt = .array ∨ nt = .poly ∨ nt = .resliced

/-! ## Tree build (`toTree`) -/

def makeIdSegments (fullId : Str) : List Str := splitDots fullId

def makePathSegments (fullId : Str) : List Str :=
  (splitDots fullId).map stripSlice

/-- The `createNode` helper inside `toTree`: builds a node (with an
immediate headslice child for sliceable kinds) from one element. -/
def createNode (element : ElementDefinition) (forceElement : Bool) : FhirTreeNode :=
  let idSegments := makeIdSegments element.id
  let pathSegments := makePathSegments element.id
  let nodeType := if forceElement then .element else toNodeType element
  if isSliceableType nodeType then
    .mk element.id element.path idSegments pathSegments nodeType none none
      (.cons (.mk element.id element.path idSegments pathSegments .headslice
        (some element) none .nil) .nil)
  else
    .mk element.id element.path idSegments pathSegments nodeType (some element)
      (if jsTruthyStr element.sliceName then element.sliceName else none) .nil

/-- The id-to-node map: JS object references become stable child-index
paths from the root (the algorithm only appends children, so paths
recorded earlier keep designating the same node). Newest binding first,
mirroring `Map.set` overwrite followed by `Map.get`. -/
abbrev IdMap := List (Str × List Nat)

def mapGet (m : IdMap) (k : Str) : Option (List Nat) :=
  match m with
  | [] => none
  | (k', v) :: rest => if k' = k then some v else mapGet rest k

def getAt : FhirTreeNode → List Nat → Option FhirTreeNode
  | n, [] => some n
  | n, i :: p =>
    match n.children.get i with
    | some c => getAt c p
    | none => none

def modifyAt : FhirTreeNode → List Nat → (FhirTreeNode → FhirTreeNode) → FhirTreeNode
  | n, [], f => f n
  | n, i :: p, f => n.withChildren (n.children.modifyIdx i (fun c => modifyAt c p f))

/-- One iteration of the `toTree` loop: compute the parent id of the
element, look the parent up, attach a freshly created node, register it.
Returns `none` where the source throws (parent not found) or would
dereference a missing headslice. -/
def insertOne (root : FhirTreeNode) (m : IdMap) (e : ElementDefinition) :
    Option (FhirTreeNode × IdMap) :=
  let idSegments := splitDots e.id
  let lastSegment := idSegments.getLastD []
  let isSlice := lastSegment.contains ':'
  let lastSegmentWithoutSlice := if isSlice then stripSlice lastSegment else lastSegment
  let parentPath :=
    if isSlice then joinDots idSegments.dropLast ++ '.' :: lastSegmentWithoutSlice
    else joinDots idSegments.dropLast
  match mapGet m parentPath with
  | none => none
  | some p =>
    match getAt root p with
    | none => none
    | some parentNode =>
      let newNode := createNode e false
      if isNodeSliceable parentNode then
        if isSlice then
          some (modifyAt root p (pushChild newNode),
            (e.id, p ++ [parentNode.children.length]) :: m)
        else
          match parentNode.children.headOpt with
          | none => none
          | some h =>
            some (modifyAt root (p ++ [0]) (pushChild newNode),
              (e.id, p ++ [0, h.children.length]) :: m)
      else
        some (modifyAt root p (pushChild newNode),
          (e.id, p ++ [parentNode.children.length]) :: m)

def insertList (root : FhirTreeNode) (m : IdMap) :
    List ElementDefinition → Option (FhirTreeNode × IdMap)
  | [] => some (root, m)
  | e :: es =>
    match insertOne root m e with
    | none => none
    | some (root1, m1) => insertList root1 m1 es

/-- Build a tree from an array of elements (wip/utils `toTree`); `none`
where the source throws. The root is forced to kind `element`. -/
def toTree (elements : List ElementDefinition) : Option FhirTreeNode :=
  match elements with
  | [] => none
  | rootElement :: rest =>
    let rootNode := createNode rootElement true
    match insertList rootNode [(rootNode.id, [])] rest with
    | none => none
    | some (t, _) => some t

/-! ## Flatten (`fromTree`) -/

def emitsDefinition (nt : NodeType) : Bool :=
  nt = .element ∨ nt = .slice ∨ nt = .headslice

mutual
/-- Flatten a tree into elements in pre-order, emitting only
element/slice/headslice nodes; `none` where the source throws on a
missing definition. -/
def fromTree : FhirTreeNode → Option (List ElementDefinition)
  | .mk _ _ _ _ nt d _ cs =>
    if emitsDefinition nt then
      match d with
      | none => none
      | some defn =>
        match fromTreeList cs with
        | none => none
        | some rest => some (defn :: rest)
    else fromTreeList cs
def fromTreeList : NodeList → Option (List ElementDefinition)
  | .nil => some []
  | .cons hd tl =>
    match fromTree hd with
    | none => none
    | some xs =>
      match fromTreeList tl with
      | none => none
      | some ys => some (xs ++ ys)
end

/-! ## Path rewriting (src/utils/element/rewriteElementPaths.ts) -/

/-- `p.endsWith('.') ? p : p + '.'` -/
def addDot (p : Str) : Str :=
  if (str ".").isSuffixOf p then p else p ++ str "."

/-- The `removeSlices` helper: strip the slice name from every segment. -/
def removeSlices (s : Str) : Str := joinDots ((splitDots s).map stripSlice)

/-- The `replaceId` closure of `rewriteElementPaths`. -/
def replaceId (newPref oldPref : Str) (s : Str) : Str :=
  let oldDot := addDot oldPref
  let newDot := addDot newPref
  if s = oldPref then newPref
  else if oldDot.isPrefixOf s then newDot ++ s.drop oldDot.length
  else s

/-- The `replacePath` closure of `rewriteElementPaths`: the comparison
prefixes are the dot-suffixed prefixes with slice names removed. -/
def replacePath (newPref oldPref : Str) (s : Str) : Str :=
  let newPathPref := removeSlices (addDot newPref)
  let oldPathPref := removeSlices (addDot oldPref)
  if s = oldPathPref then newPathPref
  else if oldPathPref.isPrefixOf s then newPathPref ++ s.drop oldPathPref.length
  else s

/-- Rewrite ids and paths of a whole element sequence onto a new prefix. -/
def rewriteElementPaths (elements : List ElementDefinition)
    (newPref oldPref : Str) : List ElementDefinition :=
  elements.map fun el =>
    { el with id := replaceId newPref oldPref el.id,
              path := replacePath newPref oldPref el.path }

/-- Rewrite a whole branch (src/utils/tree/rewriteNodePaths.ts):
flatten, rewrite, rebuild; `none` propagates the source's throws. -/
def rewriteNodePaths (node : FhirTreeNode) (newPref oldPref : Str) :
    Option FhirTreeNode :=
  match fromTree node with
  | none => none
  | some flattened => toTree (rewriteElementPaths flattened newPref oldPref)

/-! ## Working-array helpers -/

/-- Replace the element at `injectionPoint` and all of its dotted or
sliced descendants by `elementBlock` (utils/element injectElementBlock). -/
def injectElementBlock (elements : List ElementDefinition)
    (injectionPoint : Str) (elementBlock : List ElementDefinition) :
    Option (List ElementDefinition) :=
  match elements.findIdx? (fun el => decide (el.id = injectionPoint)) with
  | none => none
  | some index =>
    let before := elements.take index
    let after := (elements.drop (index + 1)).filter (fun el =>
      !((injectionPoint ++ str ".").isPrefixOf el.id) &&
      !((injectionPoint ++ str ":").isPrefixOf el.id))
    some (before ++ elementBlock ++ after)

/-- Does the working snapshot contain the target element id. -/
def elementExists (elements : List ElementDefinition) (targetElementId : Str) : Bool :=
  elements.any (fun el => decide (el.id = targetElementId))

/-- Modelled from the spec: the file defining `initCap`
(src/utils/misc/initCap.ts) is not under src/, only its imports and
call sites are. Per the spec, `InitCap(type_code)` capitalises the
first letter (the analogous inline expression appears in
newGenerator.ts line 298). -/
def initCap (s : Str) : Str :=
  match s with
  | [] => []
  | c :: cs => c.toUpper :: cs

/-! ## Merge (src/utils/element/mergeElement.ts)

Structured rendering: a key present on the diff overwrites the base
value; `constraint`/`condition`/`mapping` accumulate; `id` and `path`
are retained from the base. Opaque keys live in `others`. -/

/-- Diff value overwrites the base value when the key is present. -/
def jsOv {α : Type} (b d : Option α) : Option α :=
  match d with
  | some v => some v
  | none => b

/-- JS object key update: replace in place if present, else append. -/
def setKey (o : List (Str × Value)) (k : Str) (v : Value) : List (Str × Value) :=
  match o with
  | [] => [(k, v)]
  | (k', v') :: rest => if k' = k then (k', v) :: rest else (k', v') :: setKey rest k v

/-- `Array.from(new Set(xs))`: keep the first occurrence of each value. -/
def jsSetDedupGo (seen : List Item) : List Item → List Item
  | [] => []
  | v :: vs => if v ∈ seen then jsSetDedupGo seen vs else v :: jsSetDedupGo (v :: seen) vs

def jsSetDedup (vs : List Item) : List Item := jsSetDedupGo [] vs

def strLeB : Str → Str → Bool
  | [], _ => true
  | _ :: _, [] => false
  | a :: as, b :: bs => if a = b then strLeB as bs else decide (a < b)

def insertByKey (kv : Str × Atom) : List (Str × Atom) → List (Str × Atom)
  | [] => [kv]
  | kv' :: rest => if strLeB kv.1 kv'.1 then kv :: kv' :: rest else kv' :: insertByKey kv rest

def sortByKey : List (Str × Atom) → List (Str × Atom)
  | [] => []
  | kv :: rest => insertByKey kv (sortByKey rest)

/-- Stand-in for `JSON.stringify(Object.entries(obj).sort())`: a mapping
entry is compared through its entry list sorted by key; for flat objects
with pairwise-distinct keys this induces the same equivalence as the
stringified sorted-entry form used by the source. -/
def mapSerialize (v : Item) : Item :=
  match v with
  | .iObj fs => .iObj (sortByKey fs)
  | other => other

/-- Keep the first occurrence of each serialised form (the `seen` filter). -/
def serializeDedupGo (seen : List Item) : List Item → List Item
  | [] => []
  | m :: ms =>
    let s := mapSerialize m
    if s ∈ seen then serializeDedupGo seen ms else m :: serializeDedupGo (s :: seen) ms

def serializeDedup (ms : List Item) : List Item := serializeDedupGo [] ms

/-- Merge a diff element onto a base snapshot element; error when the
ids differ. -/
def mergeElement (base diff : ElementDefinition) : Except Str ElementDefinition :=
  if diff.id ≠ base.id then .error (str "Element ID mismatch")
  else .ok {
    id := base.id
    path := base.path
    sliceName := jsOv base.sliceName diff.sliceName
    slicing := jsOv base.slicing diff.slicing
    base := jsOv base.base diff.base
    type := jsOv base.type diff.type
    contentReference := jsOv base.contentReference diff.contentReference
    mustSupport := jsOv base.mustSupport diff.mustSupport
    extension := jsOv base.extension diff.extension
    constraint :=
      match diff.constraint with
      | none => base.constraint
      | some ds => some (base.constraint.getD [] ++ ds)
    condition :=
      match diff.condition with
      | none => base.condition
      | some ds => some (jsSetDedup (base.condition.getD [] ++ ds))
    mapping :=
      match diff.mapping with
      | none => base.mapping
      | some ds => some (serializeDedup (base.mapping.getD [] ++ ds))
    others := diff.others.foldl
      (fun acc kv => if kv.2 = Value.vUndef then acc else setKey acc kv.1 kv.2)
      base.others
  }

/-- Apply one diff to the working array: merge onto the matching
element, then clear a `sliceName` that is not the id's slice suffix
(remnant of monopoly-shortcut merges). -/
def applySingleDiff (elements : List ElementDefinition)
    (diffElement : ElementDefinition) : Except Str (List ElementDefinition) :=
  match elements.findIdx? (fun el => decide (el.id = diffElement.id)) with
  | none => .error (str "Element not found")
  | some index =>
    match elements.get? index with
    | none => .error (str "Element not found")
    | some baseElement =>
      match mergeElement baseElement diffElement with
      | .error e => .error e
      | .ok merged =>
        let fixed :=
          match merged.sliceName with
          | some sn =>
            if sn.isEmpty then merged
            else if (':' :: sn).isSuffixOf merged.id then merged
            else { merged with sliceName := none }
          | none => merged
        .ok (elements.take index ++ fixed :: elements.drop (index + 1))

/-! ## Monopoly shortcut resolver (findMonopolyShortcutTarget) -/

structure ShortcutTarget where
  rewrittenSegment : Str
  type : Str
deriving DecidableEq

def nlFilter : NodeList → (FhirTreeNode → Bool) → List FhirTreeNode
  | .nil, _ => []
  | .cons hd tl, p => if p hd then hd :: nlFilter tl p else nlFilter tl p

def typeShortcut (base missing : Str) : List ElementDefinitionType → Option ShortcutTarget
  | [] => none
  | t :: ts =>
    if base ++ initCap t.code = missing then some { rewrittenSegment := base ++ str "[x]", type := t.code }
    else typeShortcut base missing ts

def monopolyGo (pfxDot missing : Str) : List FhirTreeNode → Option ShortcutTarget
  | [] => none
  | el :: rest =>
    let idSegment := el.id.drop pfxDot.length
    let base := idSegment.take (idSegment.length - 3)
    let types := (((el.children.headOpt).bind FhirTreeNode.definition).bind ElementDefinition.type).getD []
    match typeShortcut base missing types with
    | some r => some r
    | none => monopolyGo pfxDot missing rest

/-- Scan the parent's children for a polymorphic node whose declared
types admit `missingSegment` as a type-specific alias. -/
def findMonopolyShortcutTarget (parentId : Str) (missingSegment : Str)
    (elements : NodeList) : Option ShortcutTarget :=
  let pfxDot := parentId ++ str "."
  let childElements := nlFilter elements (fun el =>
    pfxDot.isPrefixOf el.id && !(decide (el.id = parentId)) && (str "[x]").isSuffixOf el.id)
  monopolyGo pfxDot missingSegment childElements

/-! ## Definition fetcher interface and ExpandNode -/

/-- The three resolution operations of the definition fetcher, as a
record of pure functions (the class's memoisation is behaviourally
transparent to callers). -/
structure DefinitionFetcher where
  getBaseType : Str → Except Str (List ElementDefinition)
  getByUrl : Str → Except Str (List ElementDefinition)
  getContentReference : Str → Except Str (List ElementDefinition)

def ofOption {α : Type} (o : Option α) (msg : Str) : Except Str α :=
  match o with
  | some v => .ok v
  | none => .error msg

/-- The common tail of `expandNode`: rewrite the fetched snapshot onto
the node's id, rebuild a subtree and install its children. -/
def expandTail (node : FhirTreeNode) (defn : ElementDefinition)
    (snapshotElements : List ElementDefinition) : Except Str FhirTreeNode :=
  match snapshotElements with
  | [] => .error (str "the snapshot contains no elements")
  | first :: _ =>
    let rewritten := rewriteElementPaths snapshotElements node.id first.id
    match toTree rewritten with
    | none => .error (str "tree build failed")
    | some sub =>
      .ok (FhirTreeNode.mk node.id node.path node.idSegments node.pathSegments
        node.nodeType (some defn) node.sliceName sub.children)

/-- Expansion from a selected snapshot source (per-branch empty check
followed by the common tail). -/
def expandFrom (node : FhirTreeNode) (defn : ElementDefinition)
    (fetched : Except Str (List ElementDefinition)) : Except Str FhirTreeNode :=
  match fetched with
  | .error e => .error e
  | .ok es =>
    if es.isEmpty then .error (str "snapshot is empty or missing")
    else expandTail node defn es

/-- Populate a node's children from its type, profile or content
reference (unnamed part expandNode). -/
def expandNode (node : FhirTreeNode) (fetcher : DefinitionFetcher) :
    Except Str FhirTreeNode :=
  if isNodeSliceable node then
    .error (str "node is sliceable, expand must target a slice or headslice")
  else if node.children.length > 0 then .ok node
  else
    match node.definition with
    | none => .error (str "node has no ElementDefinition, cannot expand")
    | some defn =>
      let typeEmpty : Bool := match defn.type with
        | some ts => ts.isEmpty
        | none => true
      if typeEmpty ∧ ¬ jsTruthyStr defn.contentReference then
        .error (str "node has no type or contentReference defined, cannot expand")
      else if jsTruthyStr defn.contentReference then
        expandFrom node { defn with contentReference := none }
          (fetcher.getContentReference (defn.contentReference.getD []))
      else
        match defn.type with
        | none => .error (str "node has no type or contentReference defined, cannot expand")
        | some ts =>
          if ts.length > 1 then
            expandFrom node defn (fetcher.getBaseType (str "Element"))
          else
            match ts with
            | [] => .error (str "node has no type or contentReference defined, cannot expand")
            | t :: _ =>
              match t.profile with
              | some (u :: _) => expandFrom node defn (fetcher.getByUrl u)
              | _ => expandFrom node defn (fetcher.getBaseType t.code)

/-! ## EnsureChild / EnsureBranch / diff application -/

/-- The alias map: id prefixes to rewrite, mapped to the canonical id
and path. JS `Map` semantics: insertion-ordered, overwrite in place. -/
abbrev RewriteMap := List (Str × (Str × Str))

def rwMapGet (m : RewriteMap) (k : Str) : Option (Str × Str) :=
  match m with
  | [] => none
  | (k', v) :: rest => if k' = k then some v else rwMapGet rest k

def rwMapSet (m : RewriteMap) (k : Str) (v : Str × Str) : RewriteMap :=
  match m with
  | [] => [(k, v)]
  | (k', v') :: rest => if k' = k then (k', v) :: rest else (k', v') :: rwMapSet rest k v

/-- Slice synthesis from the head-slice template (ensureChild step 9-10). -/
def synthesizeSlice (elements : List ElementDefinition) (rwMap : RewriteMap)
    (childElement : FhirTreeNode) (sliceName : Str) :
    Except Str (List ElementDefinition × RewriteMap) :=
  match childElement.children.headOpt with
  | none => .error (str "headslice missing")
  | some headSlice =>
    let newId := headSlice.id ++ ':' :: sliceName
    match rewriteNodePaths headSlice newId headSlice.id with
    | none => .error (str "slice rewrite failed")
    | some newSlice0 =>
      let defn1 := newSlice0.definition.map (fun d =>
        { d with slicing := none, mustSupport := none, sliceName := some sliceName })
      let newSlice := FhirTreeNode.mk newSlice0.id newSlice0.path
        newSlice0.idSegments newSlice0.pathSegments .slice defn1
        (some sliceName) newSlice0.children
      let childElement1 := pushChild newSlice childElement
      match fromTree childElement1 with
      | none => .error (str "flatten failed")
      | some flat =>
        match injectElementBlock elements childElement.id flat with
        | none => .error (str "injection point not found")
        | some inj => .ok (inj, rwMap)

/-- Ensure that the child named by `childId` (last id segment, possibly
`name:slice`) exists under `parentId` in the working array, expanding
the parent and synthesising slices as needed
(src/utils/element/ensureChild.ts). -/
def ensureChild (elements : List ElementDefinition) (parentId : Str)
    (childId : Str) (fetcher : DefinitionFetcher) (rwMap : RewriteMap) :
    Except Str (List ElementDefinition × RewriteMap) := do
  let parentElementBlock := elements.filter (fun el =>
    decide (el.id = parentId) || (parentId ++ str ".").isPrefixOf el.id)
  if parentElementBlock.isEmpty then
    throw (str "Parent element not found in the working snapshot array")
  let parentNode0 ←
    match toTree parentElementBlock with
    | some t => pure t
    | none => throw (str "tree build failed")
  let parentNode1 ←
    if isNodeSliceable parentNode0 then
      match parentNode0.children.headOpt with
      | some h => pure h
      | none => throw (str "headslice missing")
    else pure parentNode0
  let pr ←
    if parentNode1.children.length > 0 then pure (parentNode1, elements)
    else do
      let pn ← expandNode parentNode1 fetcher
      let flat ← ofOption (fromTree pn) (str "flatten failed")
      let inj ← ofOption (injectElementBlock elements parentId flat)
        (str "injection point not found")
      pure (pn, inj)
  let parentNode2 := pr.1
  let elements1 := pr.2
  let parts := splitOnChar ':' childId
  let elementName := parts.headD []
  let sliceNameOpt := parts.get? 1
  match parentNode2.children.findOpt (fun el => ('.' :: elementName).isSuffixOf el.id) with
  | none =>
    match findMonopolyShortcutTarget parentId elementName parentNode2.children with
    | some mtch =>
      let canonicalId := parentId ++ '.' :: mtch.rewrittenSegment
      let elementDefinition := elements1.find? (fun e => decide (e.id = canonicalId))
      let canonicalPath := (elementDefinition.map ElementDefinition.path).getD canonicalId
      let rwMap1 := rwMapSet rwMap (parentId ++ '.' :: elementName) (canonicalId, canonicalPath)
      let virtualDiff : ElementDefinition :=
        { id := canonicalId, path := canonicalPath, type := some [{ code := mtch.type }] }
      let elements2 ← applySingleDiff elements1 virtualDiff
      pure (elements2, rwMap1)
    | none => throw (str "element is illegal under this parent")
  | some childElement =>
    match sliceNameOpt with
    | none => pure (elements1, rwMap)
    | some sliceName =>
      if sliceName.isEmpty then pure (elements1, rwMap)
      else if ¬ isNodeSliceable childElement then
        let aliasId := childElement.id ++ ':' :: sliceName
        pure (elements1, rwMapSet rwMap aliasId (childElement.id, childElement.path))
      else
        match childElement.children.findOpt (fun s => decide (s.sliceName = some sliceName)) with
        | some _ => pure (elements1, rwMap)
        | none =>
          let headTypes := ((childElement.children.headOpt).bind FhirTreeNode.definition).bind ElementDefinition.type
          match (if (str "[x]").isSuffixOf elementName then headTypes else none) with
          | some [t] =>
            let monopolySliceName := elementName.take (elementName.length - 3) ++ initCap t.code
            if sliceName = monopolySliceName then
              let aliasId := childElement.id ++ ':' :: sliceName
              pure (elements1, rwMapSet rwMap aliasId (childElement.id, childElement.path))
            else synthesizeSlice elements1 rwMap childElement sliceName
          | _ => synthesizeSlice elements1 rwMap childElement sliceName

/-- The segment walk of EnsureBranch, threading the canonical parent id
through the alias map. -/
def ensureBranchGo (fetcher : DefinitionFetcher) :
    List Str → Str → List ElementDefinition → RewriteMap →
    Except Str (List ElementDefinition × RewriteMap)
  | [], _, elements, rwMap => .ok (elements, rwMap)
  | seg :: rest, canonicalParentId, elements, rwMap =>
    let cpid := match rwMapGet rwMap canonicalParentId with
      | some rw => rw.1
      | none => canonicalParentId
    match ensureChild elements cpid seg fetcher rwMap with
    | .error e => .error e
    | .ok (elements1, rwMap1) =>
      ensureBranchGo fetcher rest (cpid ++ '.' :: seg) elements1 rwMap1

/-- Walk the id segments up to the target, ensuring each one exists
(unnamed part ensureBranch, alias-map-aware version). -/
def ensureBranch (elements : List ElementDefinition) (targetElementId : Str)
    (fetcher : DefinitionFetcher) (rwMap : RewriteMap) :
    Except Str (List ElementDefinition × RewriteMap) :=
  let idSegments := splitDots targetElementId
  let rootId := idSegments.headD []
  match elements with
  | [] => .error (str "Root element not found in the working snapshot array")
  | first :: _ =>
    if first.id ≠ rootId then
      .error (str "Root element not found in the working snapshot array")
    else if rootId = targetElementId then .ok (elements, rwMap)
    else ensureBranchGo fetcher (idSegments.drop 1) rootId elements rwMap

/-- Rewrite an id or path through the alias map: the first entry whose
key is the string or a dotted prefix of it wins (JS first-match
iteration in insertion order); `sel` picks the id or path component. -/
def rewriteThrough (m : RewriteMap) (sel : Str × Str → Str) (original : Str) : Str :=
  match m with
  | [] => original
  | (ip, rw) :: rest =>
    if original = ip ∨ (ip ++ str ".").isPrefixOf original then
      sel rw ++ original.drop ip.length
    else rewriteThrough rest sel original

/-- The per-diff loop of applyDiffs. -/
def applyDiffsGo (fetcher : DefinitionFetcher) :
    List ElementDefinition → List ElementDefinition → RewriteMap →
    Except Str (List ElementDefinition)
  | [], elements, _ => .ok elements
  | diff :: rest, elements, rwMap =>
    let step : Except Str (List ElementDefinition × RewriteMap) :=
      if elementExists elements diff.id then .ok (elements, rwMap)
      else ensureBranch elements diff.id fetcher rwMap
    match step with
    | .error e => .error e
    | .ok (elements1, rwMap1) =>
      let rewrittenDiff := { diff with
        id := rewriteThrough rwMap1 Prod.fst diff.id,
        path := rewriteThrough rwMap1 Prod.snd diff.path }
      match applySingleDiff elements1 rewrittenDiff with
      | .error e => .error e
      | .ok elements2 => applyDiffsGo fetcher rest elements2 rwMap1

/-- Apply all diffs in order to the working snapshot array
(unnamed part applyDiffs). -/
def applyDiffs (elements : List ElementDefinition)
    (diffs : List ElementDefinition) (fetcher : DefinitionFetcher) :
    Except Str (List ElementDefinition) :=
  let updated0 :=
    match elements with
    | [] => elements
    | e0 :: rest =>
      if e0.extension.isSome then { e0 with extension := none } :: rest
      else e0 :: rest
  if diffs.isEmpty then .ok updated0
  else applyDiffsGo fetcher diffs updated0 []

/-! ## Dynamic-object rendering of the merge (for the key-iteration
semantics of mergeElement.ts)

Here an element is an insertion-ordered association list of key/value
pairs and the merge iterates `Object.keys(diff)` exactly as the source
does, so facts about arbitrary and unknown keys can be stated. -/

namespace JsObject

abbrev Obj := List (Str × Value)

/-- JS property read (`o[k]`, `undefined` rendered as `none`). -/
def getKey (o : Obj) (k : Str) : Option Value :=
  match o with
  | [] => none
  | (k', v) :: rest => if k' = k then some v else getKey rest k

/-- `Object.keys` in insertion order. -/
def keys (o : Obj) : List Str := o.map Prod.fst

/-- `o[k] || []` where a well-typed value is an array; a present truthy
non-array would make the source throw on spread and is outside the
modelled domain. -/
def asArr (v : Option Value) : List Item :=
  match v with
  | some (.vArr items) => items
  | _ => []

/-- One iteration of the `for key of Object.keys(diff)` loop. -/
def mergeStep (base diff : Obj) (acc : Obj) (key : Str) : Obj :=
  if key = str "constraint" ∨ key = str "condition" ∨ key = str "mapping" then
    let baseArr := asArr (getKey base key)
    let diffArr := asArr (getKey diff key)
    if key = str "constraint" then setKey acc key (.vArr (baseArr ++ diffArr))
    else if key = str "condition" then setKey acc key (.vArr (jsSetDedup (baseArr ++ diffArr)))
    else setKey acc key (.vArr (serializeDedup (baseArr ++ diffArr)))
  else if key = str "id" ∨ key = str "path" then acc
  else
    match getKey diff key with
    | some v => if v = Value.vUndef then acc else setKey acc key v
    | none => acc

/-- Merge with per-key rules over the diff's own keys, starting from a
shallow copy of the base (src/utils/element/mergeElement.ts). -/
def mergeElement (base diff : Obj) : Except Str Obj :=
  if getKey diff (str "id") ≠ getKey base (str "id") then
    .error (str "Element ID mismatch")
  else .ok ((keys diff).foldl (mergeStep base diff) base)

end JsObject

/-! ## Heap rendering of the merge and single-diff application (frame
effects)

Element objects live on an explicit heap of mutable records addressed
by references; in-place writes are `setField`/`delField` on a
reference. This makes mutation expressible, so that "the inputs are
never mutated" is a real statement about which references the
operations write to. -/

namespace JsHeap

abbrev HObj := List (Str × Value)
abbrev Heap := List HObj
abbrev Ref := Nat

def getObj (h : Heap) (r : Ref) : Option HObj := h.get? r

/-- Allocate a fresh object (also used for `{ ...o }` shallow copies). -/
def alloc (h : Heap) (o : HObj) : Heap × Ref := (h ++ [o], h.length)

def modObj : Heap → Ref → (HObj → HObj) → Heap
  | [], _, _ => []
  | o :: t, 0, f => f o :: t
  | o :: t, r + 1, f => o :: modObj t r f

/-- In-place property write `h[r][k] = v`. -/
def setField (h : Heap) (r : Ref) (k : Str) (v : Value) : Heap :=
  modObj h r (fun o => setKey o k v)

/-- In-place property delete `delete h[r][k]`. -/
def delField (h : Heap) (r : Ref) (k : Str) : Heap :=
  modObj h r (fun o => o.filter (fun kv => !decide (kv.1 = k)))

def jsTruthyV (v : Value) : Bool :=
  match v with
  | .vUndef => false
  | .vAtom .aNull => false
  | .vAtom (.aBool b) => b
  | .vAtom (.aStr s) => !s.isEmpty
  | .vAtom (.aNum n) => decide (n ≠ 0)
  | _ => true

/-- One key of the merge loop, writing into the merged object `m`. -/
def mergeStepH (base diff m : Ref) (h : Heap) (key : Str) : Heap :=
  if key = str "constraint" ∨ key = str "condition" ∨ key = str "mapping" then
    if key = str "constraint" then
      setField h m key (.vArr (JsObject.asArr (JsObject.getKey ((getObj h base).getD []) key)
        ++ JsObject.asArr (JsObject.getKey ((getObj h diff).getD []) key)))
    else if key = str "condition" then
      setField h m key (.vArr (jsSetDedup
        (JsObject.asArr (JsObject.getKey ((getObj h base).getD []) key)
          ++ JsObject.asArr (JsObject.getKey ((getObj h diff).getD []) key))))
    else
      setField h m key (.vArr (serializeDedup
        (JsObject.asArr (JsObject.getKey ((getObj h base).getD []) key)
          ++ JsObject.asArr (JsObject.getKey ((getObj h diff).getD []) key))))
  else if key = str "id" ∨ key = str "path" then h
  else
    match JsObject.getKey ((getObj h diff).getD []) key with
    | some v => if v = Value.vUndef then h else setField h m key v
    | none => h

/-- Heap-level mergeElement: allocate the `{ ...base }` copy at address
`h.length`, then run the key loop writing only into the copy. -/
def mergeElement (h : Heap) (base diff : Ref) : Except Str (Heap × Ref) :=
  match getObj h base, getObj h diff with
  | some bObj, some dObj =>
    if JsObject.getKey dObj (str "id") ≠ JsObject.getKey bObj (str "id") then
      .error (str "Element ID mismatch")
    else
      .ok ((JsObject.keys dObj).foldl (mergeStepH base diff h.length) (h ++ [bObj]), h.length)
  | _, _ => .error (str "dangling reference")

/-- The sliceName fixup applySingleDiff performs on the merged copy: if
the merged element has a truthy `sliceName` but its id does not end in
`:<sliceName>`, the property is deleted from the copy in place. -/
def sliceNameFixup (h : Heap) (m : Ref) : Heap :=
  match JsObject.getKey ((getObj h m).getD []) (str "sliceName") with
  | none => h
  | some snv =>
    if !jsTruthyV snv then h
    else if (match snv, JsObject.getKey ((getObj h m).getD []) (str "id") with
             | .vAtom (.aStr sn), some (.vAtom (.aStr i)) => (':' :: sn).isSuffixOf i
             | _, _ => false) then h
    else delField h m (str "sliceName")

/-- Heap-level applySingleDiff: copy the addressed element (a fresh
allocation at `h.length`), merge the diff onto the copy (the merged
object is a further fresh allocation at `h.length + 1`), fix up
`sliceName` on the merged copy, and return a new array with the merged
reference in place. -/
def applySingleDiff (h : Heap) (elements : List Ref) (diffRef : Ref) :
    Except Str (Heap × List Ref) :=
  match getObj h diffRef with
  | none => .error (str "dangling reference")
  | some dObj =>
    match elements.findIdx? (fun r =>
      decide ((getObj h r).bind (fun o => JsObject.getKey o (str "id"))
        = JsObject.getKey dObj (str "id"))) with
    | none => .error (str "Element not found")
    | some index =>
      match elements.get? index with
      | none => .error (str "Element not found")
      | some baseRef =>
        match mergeElement (h ++ [(getObj h baseRef).getD []]) h.length diffRef with
        | .error e => .error e
        | .ok (h2, m) =>
          .ok (sliceNameFixup h2 m, elements.take index ++ m :: elements.drop (index + 1))

end JsHeap

/-! ## Cache read (getSnapshotFromCache with corruption tolerance) -/

namespace Cache

/-- Thrown values: `SyntaxError`s (from `JSON.parse`), other `Error`s
(all IO errors), and non-`Error` values. -/
inductive Exc where
  | syntaxError (msg : Str)
  | otherError (msg : Str)
  | nonError
deriving DecidableEq

/-- JS `hay.includes(needle)`. -/
def strIncludes (needle : Str) : Str → Bool
  | [] => needle.isEmpty
  | c :: rest => needle.isPrefixOf (c :: rest) || strIncludes needle rest

/-- The corrupt-cache classifier (part_007 `isCorruptCacheError`):
`SyntaxError`s, and any `Error` whose message contains one of the JSON
parse-failure markers. -/
def isCorruptCacheError (e : Exc) : Bool :=
  match e with
  | .syntaxError _ => true
  | .nonError => false
  | .otherError msg =>
    strIncludes (str "Unexpected end of JSON input") msg ||
    strIncludes (str "Unexpected token") msg ||
    strIncludes (str "JSON") msg

/-- The filesystem/parse behaviour visible to one cache read: whether
the file exists, what `readFile` yields, what `JSON.parse` does on a
given content, what `fs.remove` does. -/
structure Env where
  fileExists : Bool
  readResult : Except Exc Str
  parse : Str → Except Exc Value
  removeResult : Except Exc Unit

structure ReadOutcome where
  result : Except Exc (Option Value)
  removeCalls : Nat

/-- `!raw || raw.trim().length === 0` -/
def jsAllWhitespace (s : Str) : Bool := s.all Char.isWhitespace

/-- The cache read (part_007 `getSnapshotFromCache`): absent file is a
miss; empty/whitespace content triggers an (unguarded) delete and a
miss; a parse failure classified as corrupt triggers a best-effort
delete and a miss; anything the classifier rejects propagates. -/
def getSnapshotFromCache (env : Env) : ReadOutcome :=
  if !env.fileExists then { result := .ok none, removeCalls := 0 }
  else
    match env.readResult with
    | .error e =>
      if isCorruptCacheError e then { result := .ok none, removeCalls := 1 }
      else { result := .error e, removeCalls := 0 }
    | .ok raw =>
      if jsAllWhitespace raw then
        match env.removeResult with
        | .ok _ => { result := .ok none, removeCalls := 1 }
        | .error re =>
          if isCorruptCacheError re then { result := .ok none, removeCalls := 2 }
          else { result := .error re, removeCalls := 1 }
      else
        match env.parse raw with
        | .ok v => { result := .ok (some v), removeCalls := 0 }
        | .error pe =>
          if isCorruptCacheError pe then { result := .ok none, removeCalls := 1 }
          else { result := .error pe, removeCalls := 0 }

/-- Counterexample environment: an existing, empty cache file whose
deletion fails with a plain IO error. -/
def c7Env : Env :=
  { fileExists := true
    readResult := .ok (str "")
    parse := fun _ => .error (.syntaxError (str "Unexpected end of JSON input"))
    removeResult := .error (.otherError (str "EPERM: operation not permitted, unlink")) }

end Cache

/-! ## Base-library package resolver (resolveBasePackage.ts) -/

namespace Resolver

structure PackageIdentifier where
  id : Str
  version : Str
deriving DecidableEq

def pkgAtStr (p : PackageIdentifier) : Str := p.id ++ '@' :: p.version

def lookupStr (m : List (Str × Str)) (k : Str) : Option Str :=
  match m with
  | [] => none
  | (k', v) :: rest => if k' = k then some v else lookupStr rest k

def fhirVersionMap : List (Str × Str) :=
  [(str "3.0.2", str "STU3"), (str "3.0", str "STU3"), (str "R3", str "STU3"),
   (str "4.0.1", str "R4"), (str "4.0", str "R4"),
   (str "4.3.0", str "R4B"), (str "4.3", str "R4B"),
   (str "5.0.0", str "R5"), (str "5.0", str "R5")]

def fhirCorePackages : List (Str × Str) :=
  [(str "STU3", str "hl7.fhir.r3.core@3.0.2"),
   (str "R4", str "hl7.fhir.r4.core@4.0.1"),
   (str "R4B", str "hl7.fhir.r4b.core@4.3.0"),
   (str "R5", str "hl7.fhir.r5.core@5.0.0")]

/-- `Object.values(fhirCorePackages)` -/
def coreValues : List Str := fhirCorePackages.map Prod.snd

/-- `resolveFhirVersion(v, true)`: canonicalise the version identifier
and split the core package string into an identifier; throws on an
unsupported version. -/
def resolveFhirVersionPkg (version : Str) : Except Str PackageIdentifier :=
  let canonical := (lookupStr fhirVersionMap version).getD version
  match lookupStr fhirCorePackages canonical with
  | none => .error (str "Unsupported FHIR version")
  | some corePackage =>
    let parts := splitOnChar '@' corePackage
    .ok { id := parts.headD [], version := (parts.get? 1).getD [] }

/-- Keep the package itself if it is a known core package, else the
direct dependencies whose id-at-version is a known core package. -/
def findCorePackage (pkg : PackageIdentifier) (deps : List PackageIdentifier) :
    List PackageIdentifier :=
  if pkgAtStr pkg ∈ coreValues then [pkg]
  else deps.filter (fun dep => decide (pkgAtStr dep ∈ coreValues))

/-- The tail of resolveBasePackage after the candidate list is fixed:
more than one candidate yields undefined; an empty list makes the
source dereference `corePackages[0]` (a TypeError, modelled as an
error); a single candidate is normalised 4.0.0 to 4.0.1 and returned. -/
def finishResolve (cps : List PackageIdentifier) : Except Str (Option Str) :=
  if cps.length > 1 then .ok none
  else
    match cps with
    | [] => .error (str "TypeError: cannot read properties of undefined")
    | c :: _ =>
      let version :=
        if c.id = str "hl7.fhir.r4.core" ∧ c.version = str "4.0.0" then str "4.0.1"
        else c.version
      .ok (some (c.id ++ '@' :: version))

/-- Resolve the base FHIR package for a profile package from its direct
dependencies, falling back to the manifest's fhirVersions list. -/
def resolveBasePackage (pkg : PackageIdentifier) (deps : List PackageIdentifier)
    (manifestFhirVersions : Option (List Str)) : Except Str (Option Str) :=
  let cp0 := findCorePackage pkg deps
  if cp0.length = 0 then
    match manifestFhirVersions with
    | some vs =>
      if vs.length > 0 then
        match vs.foldlM (fun acc v => (resolveFhirVersionPkg v).map (fun cp => acc ++ [cp]))
            ([] : List PackageIdentifier) with
        | .error e => .error e
        | .ok more =>
          let cps := cp0 ++ more
          if cps.length = 0 then .ok none
          else finishResolve cps
      else finishResolve cp0
    | none => finishResolve cp0
  else finishResolve cp0

/-- The base-library id pattern used elsewhere in the repository (the
orchestrator's check for core packages in context matches ids of the
form hl7.fhir.r followed by digits followed by .core). -/
def isCoreLibraryId (s : Str) : Bool :=
  (str "hl7.fhir.r").isPrefixOf s &&
  (str ".core").isSuffixOf s &&
  (let mid := (s.drop (str "hl7.fhir.r").length).take
      (s.length - (str "hl7.fhir.r").length - (str ".core").length)
   !mid.isEmpty && mid.all Char.isDigit)

def c8Pkg : PackageIdentifier := { id := str "il.core.fhir", version := str "0.18.5" }

def c8Dep : PackageIdentifier := { id := str "hl7.fhir.r4.core", version := str "4.0.0" }

def c8GoodDep : PackageIdentifier := { id := str "hl7.fhir.r4.core", version := str "4.0.1" }

end Resolver

/-! ## Emission: the total flatten used inside proofs -/

mutual
def emitNode : FhirTreeNode → List ElementDefinition
  | .mk _ _ _ _ nt defn _ cs =>
    (if emitsDefinition nt then
      (match defn with
       | some d => [d]
       | none => []) else []) ++ emitList cs
def emitList : NodeList → List ElementDefinition
  | .nil => []
  | .cons hd tl => emitNode hd ++ emitList tl
end

/-! ## Well-formed (legal) trees

These Boolean predicates capture the spec's tree invariants in the
exact form needed by the tree code: node kinds agree with the
classifier on the node's own definition, cached ids/paths/segments are
consistent, sliceable containers carry their head-slice first, slices
hang only off sliceable containers, and each child id extends its
parent id by one dot segment (or one colon-suffixed slice name), so
that the id-parent rule resolves to the structural parent. -/

def segOK (seg : Str) : Bool :=
  !seg.isEmpty && !(seg.contains '.') && !(seg.contains ':')

def dotExtends (pid i : Str) : Bool :=
  (pid ++ ['.']).isPrefixOf i && segOK (i.drop (pid.length + 1))

def colonExtends (cid i : Str) : Bool :=
  (cid ++ [':']).isPrefixOf i && segOK (i.drop (cid.length + 1))

def coreChecks (i : Str) (iseg pseg : List Str) : Bool :=
  decide (iseg = splitDots i) && decide (pseg = (splitDots i).map stripSlice)

def defnChecks (i p : Str) (d : ElementDefinition) : Bool :=
  decide (d.id = i) && decide (d.path = p)

mutual
def wfDotChildB (pid : Str) (n : FhirTreeNode) : Bool :=
  match n with
  | .mk i p iseg pseg nt defn sn cs =>
    dotExtends pid i && coreChecks i iseg pseg &&
    (match nt, defn, sn with
     | .element, some d, none =>
       defnChecks i p d && decide (toNodeType d = NodeType.element) && wfChildrenB i cs
     | .array, none, none => wfContainerB i p iseg pseg .array cs true
     | .poly, none, none => wfContainerB i p iseg pseg .poly cs true
     | _, _, _ => false)
def wfContainerB (i p : Str) (iseg pseg : List Str) (nt : NodeType) (cs : NodeList)
    (allowSlices : Bool) : Bool :=
  match cs with
  | .cons (.mk hi hp hiseg hpseg hnt hdefn hsn hcs) tl =>
    decide (hi = i) && decide (hp = p) && decide (hiseg = iseg) &&
    decide (hpseg = pseg) && decide (hnt = NodeType.headslice) &&
    decide (hsn = (none : Option Str)) &&
    (match hdefn with
     | some d =>
       defnChecks i p d && decide (toNodeType d = nt) && wfChildrenB i hcs &&
       (if allowSlices then wfSlicesB i tl
        else (match tl with
              | .nil => true
              | .cons _ _ => false))
     | none => false)
  | .nil => false
def wfSliceB (cid : Str) (n : FhirTreeNode) : Bool :=
  match n with
  | .mk i p iseg pseg nt defn sn cs =>
    colonExtends cid i && coreChecks i iseg pseg &&
    (match nt, defn with
     | .slice, some d =>
       defnChecks i p d && decide (toNodeType d = NodeType.slice) &&
       decide (sn = d.sliceName) && wfChildrenB i cs
     | .resliced, none =>
       decide (sn = (none : Option Str)) && wfContainerB i p iseg pseg .resliced cs false
     | _, _ => false)
def wfChildrenB (pid : Str) : NodeList → Bool
  | .nil => true
  | .cons c tl => wfDotChildB pid c && wfChildrenB pid tl
def wfSlicesB (cid : Str) : NodeList → Bool
  | .nil => true
  | .cons c tl => wfSliceB cid c && wfSlicesB cid tl
end

/-- A legal element tree: root of kind element holding its own
definition, with legal children. -/
def wfRootB (t : FhirTreeNode) : Bool :=
  match t with
  | .mk i p iseg pseg nt defn sn cs =>
    decide (nt = NodeType.element) && coreChecks i iseg pseg &&
    (match defn with
     | some d =>
       defnChecks i p d &&
       decide (sn = (if jsTruthyStr d.sliceName then d.sliceName else none)) &&
       wfChildrenB i cs
     | none => false)

/-! Registration entries (id, path) produced while re-inserting a
subtree, newest first; used to describe the id map of the rebuild. -/

mutual
def regsRevNode : FhirTreeNode → List Nat → IdMap
  | .mk i _ _ _ nt _ _ cs, pi =>
    if isSliceableType nt then
      match cs with
      | .cons (.mk _ _ _ _ _ _ _ hcs) tl =>
        regsRevList tl pi 1 ++ regsRevList hcs (pi ++ [0]) 0 ++ [(i, pi)]
      | .nil => [(i, pi)]
    else regsRevList cs pi 0 ++ [(i, pi)]
def regsRevList : NodeList → List Nat → Nat → IdMap
  | .nil, _, _ => []
  | .cons c tl, pi, k => regsRevList tl pi (k + 1) ++ regsRevNode c (pi ++ [k])
end

/-! ## Concrete scenario data -/

/-- A fetcher that fails every resolution; scenarios that never expand
use it to witness that no fetch happens. -/
def failFetcher : DefinitionFetcher :=
  { getBaseType := fun _ => .error (str "unavailable")
    getByUrl := fun _ => .error (str "unavailable")
    getContentReference := fun _ => .error (str "unavailable") }

def obsRoot : ElementDefinition := { id := str "Observation", path := str "Observation" }

def obsValueX : ElementDefinition :=
  { id := str "Observation.value[x]"
    path := str "Observation.value[x]"
    base := some { path := str "Observation.value[x]", max := some (str "1") }
    type := some [{ code := str "Quantity" }, { code := str "string" }] }

def c2Base : List ElementDefinition := [obsRoot, obsValueX]

/-- A differential entry addressing value[x] through the valueQuantity
monopoly alias, carrying a further constraint (short). -/
def c2Diff : ElementDefinition :=
  { id := str "Observation.valueQuantity"
    path := str "Observation.valueQuantity"
    others := [(str "short", Value.vAtom (Atom.aStr (str "constrained")))] }

def c2Run : Except Str (List ElementDefinition) := applyDiffs c2Base [c2Diff] failFetcher

def c2Expected : List ElementDefinition :=
  [obsRoot,
   { id := str "Observation.value[x]"
     path := str "Observation.value[x]"
     base := some { path := str "Observation.value[x]", max := some (str "1") }
     type := some [{ code := str "Quantity" }]
     others := [(str "short", Value.vAtom (Atom.aStr (str "constrained")))] }]

def compRoot : ElementDefinition := { id := str "Composition", path := str "Composition" }

def compDate : ElementDefinition :=
  { id := str "Composition.date"
    path := str "Composition.date"
    base := some { path := str "Composition.date", max := some (str "1") } }

def c5Base : List ElementDefinition := [compRoot, compDate]

/-- A differential entry addressing a slice of the scalar (non-sliceable)
date element. -/
def c5Diff : ElementDefinition :=
  { id := str "Composition.date:IssueDate"
    path := str "Composition.date"
    sliceName := some (str "IssueDate")
    others := [(str "short", Value.vAtom (Atom.aStr (str "issued")))] }

def c5Run : Except Str (List ElementDefinition) := applyDiffs c5Base [c5Diff] failFetcher

def c5Expected : List ElementDefinition :=
  [compRoot,
   { id := str "Composition.date"
     path := str "Composition.date"
     base := some { path := str "Composition.date", max := some (str "1") }
     others := [(str "short", Value.vAtom (Atom.aStr (str "issued")))] }]

/-- The parent node ensureChild builds for the Composition scenario
(the tree of the filtered parent block). -/
def c5PN : FhirTreeNode :=
  (toTree (c5Base.filter (fun el => decide (el.id = str "Composition")
    || (str "Composition" ++ str ".").isPrefixOf el.id))).getD
    (FhirTreeNode.mk [] [] [] [] .element none none .nil)

/-- The non-sliceable date child found under that parent. -/
def c5CE : FhirTreeNode :=
  (c5PN.children.findOpt (fun el => ('.' :: str "date").isSuffixOf el.id)).getD
    (FhirTreeNode.mk [] [] [] [] .element none none .nil)

def c4Defn : ElementDefinition :=
  { id := str "X.a"
    path := str "X.a"
    type := some [{ code := str "Quantity" }, { code := str "string" }] }

def c4Node : FhirTreeNode :=
  FhirTreeNode.mk (str "X.a") (str "X.a") (makeIdSegments (str "X.a"))
    (makePathSegments (str "X.a")) .element (some c4Defn) none .nil

def c1Elems : List ElementDefinition :=
  [{ id := str "Patient", path := str "Patient" },
   { id := str "Patient.active"
     path := str "Patient.active"
     base := some { path := str "Patient.active", max := some (str "1") } },
   { id := str "Patient.name"
     path := str "Patient.name"
     base := some { path := str "Patient.name", max := some (str "*") } },
   { id := str "Patient.name.family"
     path := str "Patient.name.family"
     base := some { path := str "HumanName.family", max := some (str "1") } },
   { id := str "Patient.name:official"
     path := str "Patient.name"
     sliceName := some (str "official")
     base := some { path := str "Patient.name", max := some (str "*") } },
   { id := str "Patient.name:official.family"
     path := str "Patient.name.family"
     base := some { path := str "HumanName.family", max := some (str "1") } }]

def dummyNode : FhirTreeNode := FhirTreeNode.mk [] [] [] [] .element none none .nil

def c1WitnessTree : FhirTreeNode := (toTree c1Elems).getD dummyNode

def c3Elem : JsObject.Obj :=
  [(str "id", Value.vAtom (Atom.aStr (str "Patient.active"))),
   (str "path", Value.vAtom (Atom.aStr (str "Patient.active"))),
   (str "min", Value.vAtom (Atom.aNum 0)),
   (str "constraint", Value.vArr
     [Item.iObj [(str "key", Atom.aStr (str "ele-1"))],
      Item.iObj [(str "key", Atom.aStr (str "dom-2"))]]),
   (str "condition", Value.vArr
     [Item.iAtom (Atom.aStr (str "ele-1")), Item.iAtom (Atom.aStr (str "dom-2"))]),
   (str "mapping", Value.vArr [Item.iObj [(str "identity", Atom.aStr (str "rim"))]])]

def c10Heap : JsHeap.Heap :=
  [[(str "id", Value.vAtom (Atom.aStr (str "Patient.active"))),
    (str "constraint", Value.vArr [Item.iObj [(str "key", Atom.aStr (str "ele-1"))]])],
   [(str "id", Value.vAtom (Atom.aStr (str "Patient.active"))),
    (str "min", Value.vAtom (Atom.aNum 1)),
    (str "sliceName", Value.vAtom (Atom.aStr (str "Stray")))]]

/-- The concrete result of the heap-level applySingleDiff at the
witness heap. -/
def c10Out : JsHeap.Heap × List JsHeap.Ref :=
  ((JsHeap.applySingleDiff c10Heap [0] 1).toOption).getD ([], [])

def c7WitnessEnv : Cache.Env :=
  { fileExists := true
    readResult := .ok (str "x")
    parse := fun _ => .error (.syntaxError (str "Unexpected token x in JSON at position 0"))
    removeResult := .ok () }

/-- A read whose IO failure is not a parse failure, but whose message
happens to contain the substring JSON. -/
def c7SwallowEnv : Cache.Env :=
  { fileExists := true
    readResult := .error (.otherError (str "EACCES: permission denied reading JSON cache"))
    parse := fun _ => .error (.syntaxError (str "unreachable"))
    removeResult := .ok () }

/-- The result of merging the concrete element onto itself. -/
def c3Merged : JsObject.Obj := ((JsObject.mergeElement c3Elem c3Elem).toOption).getD []

/-! ## Proof-support definitions -/

/-- The value (if any) that one iteration of the identity-diff merge
loop writes under a given key. -/
def stepVal (e : JsObject.Obj) (k : Str) : Option Value :=
  if k = str "constraint" ∨ k = str "condition" ∨ k = str "mapping" then
    let arr := JsObject.asArr (JsObject.getKey e k)
    if k = str "constraint" then some (.vArr (arr ++ arr))
    else if k = str "condition" then some (.vArr (jsSetDedup (arr ++ arr)))
    else some (.vArr (serializeDedup (arr ++ arr)))
  else if k = str "id" ∨ k = str "path" then none
  else
    match JsObject.getKey e k with
    | some v => if v = Value.vUndef then none else some v
    | none => none

def appendChildren (cs : NodeList) (n : FhirTreeNode) : FhirTreeNode :=
  n.withChildren (n.children.append cs)

/-- Attachment context for re-inserting a dotted child below the node
registered at path `p`: either the parent is not sliceable (attach to
its own children at position `k`) or it is a container whose head-slice
receives the child. -/
def attachCtx (T : FhirTreeNode) (p q : List Nat) (k : Nat) : Prop :=
  (∃ P, getAt T p = some P ∧ isNodeSliceable P = false ∧ q = p ∧ k = P.children.length) ∨
  (∃ P H tl, getAt T p = some P ∧ isNodeSliceable P = true ∧ P.children = .cons H tl ∧
    q = p ++ [0] ∧ k = H.children.length)

/-- Attachment context for re-inserting a slice below the container
registered at path `p`. -/
def sliceCtx (T : FhirTreeNode) (p : List Nat) (k : Nat) : Prop :=
  ∃ P, getAt T p = some P ∧ isNodeSliceable P = true ∧ k = P.children.length

/-! # Theorems -/

/-! ## String lemmas -/

theorem splitOnChar_ne_nil (c : Char) (s : Str) : splitOnChar c s ≠ [] := by
  induction s with
  | nil => simp [splitOnChar]
  | cons x xs ih =>
    simp only [splitOnChar]
    cases h : splitOnChar c xs with
    | nil => simp
    | cons s ss => by_cases hx : x = c <;> simp [hx]

theorem splitOnChar_not_mem (c : Char) (s : Str) (h : c ∉ s) : splitOnChar c s = [s] := by
  induction s with
  | nil => rfl
  | cons x xs ih =>
    simp only [List.mem_cons, not_or] at h
    simp only [splitOnChar, ih h.2]
    simp [Ne.symm h.1]

theorem splitOnChar_cons (c x : Char) (xs : Str) :
    splitOnChar c (x :: xs) =
      match splitOnChar c xs with
      | [] => [[x]]
      | s :: ss => if x = c then [] :: s :: ss else (x :: s) :: ss := rfl

theorem splitOnChar_append_sep (c : Char) (xs ys : Str) :
    splitOnChar c (xs ++ c :: ys) = splitOnChar c xs ++ splitOnChar c ys := by
  induction xs with
  | nil =>
    simp only [List.nil_append, splitOnChar]
    cases h : splitOnChar c ys with
    | nil => exact absurd h (splitOnChar_ne_nil c ys)
    | cons s ss => simp
  | cons x xs ih =>
    rw [List.cons_append, splitOnChar_cons, ih, splitOnChar_cons]
    cases h : splitOnChar c xs with
    | nil => exact absurd h (splitOnChar_ne_nil c xs)
    | cons s ss => by_cases hx : x = c <;> simp [hx]

theorem joinSep_splitOnChar (c : Char) (s : Str) : joinSep c (splitOnChar c s) = s := by
  induction s with
  | nil => rfl
  | cons x xs ih =>
    simp only [splitOnChar]
    cases h : splitOnChar c xs with
    | nil => exact absurd h (splitOnChar_ne_nil c xs)
    | cons s ss =>
      rw [h] at ih
      by_cases hx : x = c
      · subst hx
        simp only [if_pos rfl, joinSep]
        cases ss <;> simp_all [joinSep]
      · simp only [if_neg hx]
        cases ss <;> simp_all [joinSep]

theorem joinSep_two (c : Char) (a b : Str) (bs : List Str) :
    joinSep c (a :: b :: bs) = a ++ c :: joinSep c (b :: bs) := rfl

theorem joinSep_append_last (c : Char) (I : List Str) (x : Str) (h : I ≠ []) :
    joinSep c (I ++ [x]) = joinSep c I ++ c :: x := by
  induction I with
  | nil => exact absurd rfl h
  | cons a as ih =>
    cases as with
    | nil => simp [joinSep]
    | cons b bs =>
      have h2 := ih (List.cons_ne_nil b bs)
      calc joinSep c ((a :: b :: bs) ++ [x])
          = a ++ c :: joinSep c ((b :: bs) ++ [x]) := by
            simp only [List.cons_append]
            exact joinSep_two c a b (bs ++ [x])
        _ = a ++ c :: (joinSep c (b :: bs) ++ c :: x) := by rw [h2]
        _ = joinSep c (a :: b :: bs) ++ c :: x := by
            rw [joinSep_two]
            simp

theorem splitOnChar_append_nosep (c : Char) (xs ys : Str) (h : c ∉ ys) :
    ∀ I l, splitOnChar c xs = I ++ [l] → splitOnChar c (xs ++ ys) = I ++ [l ++ ys] := by
  induction xs with
  | nil =>
    intro I l hs
    simp only [splitOnChar] at hs
    cases I with
    | cons a as =>
      exfalso
      have htl : ([] : List Str) = as ++ [l] := by
        simpa using congrArg List.tail hs
      simp at htl
    | nil =>
      have hl : l = [] := by simpa using hs
      subst hl
      simpa using splitOnChar_not_mem c ys h
  | cons x xs ih =>
    intro I l hs
    rw [splitOnChar_cons] at hs
    rw [List.cons_append, splitOnChar_cons]
    cases hsp : splitOnChar c xs with
    | nil => exact absurd hsp (splitOnChar_ne_nil c xs)
    | cons s ss =>
      rw [hsp] at hs
      have hs2 : (if x = c then [] :: s :: ss else (x :: s) :: ss) = I ++ [l] := hs
      clear hs
      by_cases hx : x = c
      · rw [if_pos hx] at hs2
        cases I with
        | nil =>
          exfalso
          have htl : s :: ss = [] := by simpa using congrArg List.tail hs2
          simp at htl
        | cons a as =>
          simp only [List.cons_append, List.cons.injEq] at hs2
          obtain ⟨ha, htl⟩ := hs2
          have h2 := ih as l (hsp.trans htl)
          cases as with
          | nil => rw [h2]; simp [hx, ← ha]
          | cons a2 as2 => rw [h2]; simp [hx, ← ha]
      · rw [if_neg hx] at hs2
        cases I with
        | nil =>
          simp only [List.nil_append, List.cons.injEq] at hs2
          obtain ⟨hl, hss⟩ := hs2
          have h2 := ih [] s (by rw [hsp, hss]; simp)
          rw [h2]
          simp only [if_neg hx, List.nil_append]
          rw [← hl]
          simp
        | cons a as =>
          simp only [List.cons_append, List.cons.injEq] at hs2
          obtain ⟨ha, htl⟩ := hs2
          have h2 := ih (s :: as) l (by rw [hsp, htl]; simp)
          rw [h2]
          simp only [List.cons_append, if_neg hx]
          rw [← ha]

theorem stripSlice_not_mem (s : Str) (h : (':' : Char) ∉ s) : stripSlice s = s := by
  simp [stripSlice, splitOnChar_not_mem ':' s h]

theorem stripSlice_append_colon (l sn : Str) (h : (':' : Char) ∉ l) :
    stripSlice (l ++ ':' :: sn) = l := by
  simp [stripSlice, splitOnChar_append_sep, splitOnChar_not_mem ':' l h]

theorem removeSlices_dot (a : Str) : removeSlices (a ++ ['.']) = removeSlices a ++ ['.'] := by
  have h1 : splitOnChar '.' (a ++ ['.']) = splitOnChar '.' a ++ [[]] := by
    have := splitOnChar_append_sep '.' a []
    simpa using this
  have hne : ((splitOnChar '.' a).map stripSlice) ≠ [] := by
    intro hx
    exact splitOnChar_ne_nil '.' a (List.map_eq_nil_iff.mp hx)
  have hstrip : stripSlice [] = [] := rfl
  simp only [removeSlices, splitDots, h1, List.map_append, List.map_cons, List.map_nil, hstrip,
    joinDots]
  rw [joinSep_append_last '.' _ _ hne]

theorem addDot_eq (p : Str) (h : (str ".").isSuffixOf p = false) : addDot p = p ++ ['.'] := by
  simp [addDot, h]
  rfl

/-! ## C6: rewriteElementPaths -/

/-- Claim C6 (counterexample): the claim states that a path exactly
equal to the slice-stripped old prefix is rewritten to the
slice-stripped new prefix; but for the element with id and path
HumanName under rewriteElementPaths(elements, Patient.name, HumanName)
the path comes out unchanged (the source's exact-match comparison for
paths uses the dot-suffixed stripped prefix). -/
theorem C6_counterexample :
    ((rewriteElementPaths [{ id := str "HumanName", path := str "HumanName" }]
        (str "Patient.name") (str "HumanName")).map ElementDefinition.path
      = [str "HumanName"])
    ∧ removeSlices (str "HumanName") = str "HumanName"
    ∧ removeSlices (str "Patient.name") = str "Patient.name"
    ∧ str "HumanName" ≠ str "Patient.name" := by
  refine ⟨?_, ?_, ?_, ?_⟩ <;> decide

/-- Claim C6 (amended): for prefixes not ending in a dot,
rewriteElementPaths maps each id equal to old to new, each id starting
with old-dot to new-dot plus the remainder, and copies other ids; paths
are rewritten the same way with slice-stripped prefixes for strict
descendants, but a path exactly equal to the slice-stripped old prefix
is copied unchanged (the exact-match test compares against the
dot-suffixed stripped prefix). -/
theorem C6_rewriteElementPaths_amended (newPref oldPref : Str)
    (hnew : (str ".").isSuffixOf newPref = false)
    (hold : (str ".").isSuffixOf oldPref = false) :
    (∀ elements, rewriteElementPaths elements newPref oldPref
        = elements.map (fun el => { el with id := replaceId newPref oldPref el.id,
                                            path := replacePath newPref oldPref el.path }))
    ∧ replaceId newPref oldPref oldPref = newPref
    ∧ (∀ rest, replaceId newPref oldPref (oldPref ++ '.' :: rest) = newPref ++ '.' :: rest)
    ∧ (∀ s, s ≠ oldPref → (∀ rest, s ≠ oldPref ++ '.' :: rest) →
        replaceId newPref oldPref s = s)
    ∧ replacePath newPref oldPref (removeSlices oldPref) = removeSlices oldPref
    ∧ (∀ rest, replacePath newPref oldPref (removeSlices oldPref ++ '.' :: rest)
        = removeSlices newPref ++ '.' :: rest)
    ∧ (∀ s, (∀ rest, s ≠ removeSlices oldPref ++ '.' :: rest) →
        replacePath newPref oldPref s = s) := by
  have hod : addDot oldPref = oldPref ++ ['.'] := addDot_eq _ hold
  have hnd : addDot newPref = newPref ++ ['.'] := addDot_eq _ hnew
  refine ⟨fun elements => rfl, ?_, ?_, ?_, ?_, ?_, ?_⟩
  · simp [replaceId]
  · intro rest
    have hne : oldPref ++ '.' :: rest ≠ oldPref := by
      intro h
      have := congrArg List.length h
      simp at this
    have hpre : (addDot oldPref).isPrefixOf (oldPref ++ '.' :: rest) = true := by
      rw [hod, List.isPrefixOf_iff_prefix]
      exact ⟨rest, by simp⟩
    simp only [replaceId, if_neg hne, hpre, if_pos rfl, hod, hnd]
    have : oldPref ++ '.' :: rest = (oldPref ++ ['.']) ++ rest := by simp
    rw [this, List.drop_left]
    simp
  · intro s h1 h2
    have hpre : (addDot oldPref).isPrefixOf s = false := by
      rw [hod]
      by_contra hx
      rw [Bool.not_eq_false, List.isPrefixOf_iff_prefix] at hx
      obtain ⟨t, ht⟩ := hx
      exact h2 t (by rw [← ht]; simp)
    simp [replaceId, if_neg h1, hpre]
  · have hlen : removeSlices oldPref ≠ removeSlices (addDot oldPref) := by
      rw [hod, removeSlices_dot]
      intro h
      have := congrArg List.length h
      simp at this
    have hpre : (removeSlices (addDot oldPref)).isPrefixOf (removeSlices oldPref) = false := by
      rw [hod, removeSlices_dot]
      by_contra hx
      rw [Bool.not_eq_false, List.isPrefixOf_iff_prefix] at hx
      have := hx.length_le
      simp at this
    simp [replacePath, if_neg hlen, hpre]
  · intro rest
    have hne : removeSlices oldPref ++ '.' :: rest = (removeSlices (addDot oldPref)) ++ rest := by
      rw [hod, removeSlices_dot]; simp
    by_cases heq : removeSlices oldPref ++ '.' :: rest = removeSlices (addDot oldPref)
    · have hrest : rest = [] := by
        rw [hne] at heq
        have := congrArg List.length heq
        simpa using this
      subst hrest
      simp only [replacePath, if_pos heq, hod, hnd, removeSlices_dot]
      simp
    · have hc1 : removeSlices (addDot oldPref) ++ rest ≠ removeSlices (addDot oldPref) := by
        intro hx
        have hr : rest = [] := by
          have := congrArg List.length hx
          simpa using this
        subst hr
        exact heq (by simpa using hne)
      have hc2 : (removeSlices (addDot oldPref)).isPrefixOf
          (removeSlices (addDot oldPref) ++ rest) = true := by
        rw [List.isPrefixOf_iff_prefix]
        exact List.prefix_append _ _
      simp only [replacePath, hne]
      rw [if_neg hc1, if_pos hc2, List.drop_left, hnd, removeSlices_dot]
      simp
  · intro s h2
    have heq : s ≠ removeSlices (addDot oldPref) := by
      rw [hod, removeSlices_dot]
      intro h
      exact h2 [] (by rw [h])
    have hpre : (removeSlices (addDot oldPref)).isPrefixOf s = false := by
      rw [hod, removeSlices_dot]
      by_contra hx
      rw [Bool.not_eq_false, List.isPrefixOf_iff_prefix] at hx
      obtain ⟨t, ht⟩ := hx
      exact h2 t (by rw [← ht]; simp)
    simp [replacePath, if_neg heq, hpre]

/-! ## Object lemmas for the merge -/

theorem getKey_setKey_self (o : List (Str × Value)) (k : Str) (v : Value) :
    JsObject.getKey (setKey o k v) k = some v := by
  induction o with
  | nil => simp [setKey, JsObject.getKey]
  | cons kv rest ih =>
    obtain ⟨k', v'⟩ := kv
    by_cases h : k' = k
    · simp [setKey, h, JsObject.getKey]
    · simp [setKey, h, JsObject.getKey, ih]

theorem getKey_setKey_ne (o : List (Str × Value)) (k k2 : Str) (v : Value) (h : k2 ≠ k) :
    JsObject.getKey (setKey o k v) k2 = JsObject.getKey o k2 := by
  induction o with
  | nil => simp [setKey, JsObject.getKey, Ne.symm h]
  | cons kv rest ih =>
    obtain ⟨k', v'⟩ := kv
    by_cases hk : k' = k
    · subst hk
      simp only [setKey, if_pos rfl, JsObject.getKey]
      rw [if_neg (by intro hx; exact h (hx ▸ rfl))]
      rw [if_neg (by intro hx; exact h (hx ▸ rfl))]
    · simp only [setKey, if_neg hk, JsObject.getKey]
      by_cases h2 : k' = k2
      · simp [h2]
      · simp [h2, ih]

theorem stepGet (e acc : JsObject.Obj) (key k : Str) :
    JsObject.getKey (JsObject.mergeStep e e acc key) k =
      if k = key then
        (match stepVal e key with
         | some v => some v
         | none => JsObject.getKey acc key)
      else JsObject.getKey acc k := by
  have hcc : ¬(str "condition" = str "constraint") := by decide
  have hmc : ¬(str "mapping" = str "constraint") := by decide
  have hmd : ¬(str "mapping" = str "condition") := by decide
  by_cases hk : k = key
  · subst hk
    simp only [JsObject.mergeStep, stepVal, if_pos rfl]
    by_cases h1 : k = str "constraint" ∨ k = str "condition" ∨ k = str "mapping"
    · rw [if_pos h1, if_pos h1]
      by_cases h2 : k = str "constraint"
      · subst h2
        simp [getKey_setKey_self]
      · by_cases h3 : k = str "condition"
        · subst h3
          simp [hcc, getKey_setKey_self]
        · rcases h1 with h1 | h1 | h1
          · exact absurd h1 h2
          · exact absurd h1 h3
          · subst h1
            simp [hmc, hmd, getKey_setKey_self]
    · rw [if_neg h1, if_neg h1]
      by_cases h2 : k = str "id" ∨ k = str "path"
      · simp [h2]
      · rw [if_neg h2, if_neg h2]
        cases hv : JsObject.getKey e k with
        | none => simp
        | some v =>
          by_cases hu : v = Value.vUndef
          · simp [hu]
          · simp [hu, getKey_setKey_self]
  · simp only [JsObject.mergeStep, if_neg hk]
    by_cases h1 : key = str "constraint" ∨ key = str "condition" ∨ key = str "mapping"
    · rw [if_pos h1]
      by_cases h2 : key = str "constraint"
      · subst h2
        simp [getKey_setKey_ne _ _ _ _ hk]
      · by_cases h3 : key = str "condition"
        · subst h3
          simp [hcc, getKey_setKey_ne _ _ _ _ hk]
        · rcases h1 with h1 | h1 | h1
          · exact absurd h1 h2
          · exact absurd h1 h3
          · subst h1
            simp [hmc, hmd, getKey_setKey_ne _ _ _ _ hk]
    · rw [if_neg h1]
      by_cases h2 : key = str "id" ∨ key = str "path"
      · simp [h2]
      · rw [if_neg h2]
        cases hv : JsObject.getKey e key with
        | none => simp
        | some v =>
          by_cases hu : v = Value.vUndef
          · simp [hu]
          · simp [hu, getKey_setKey_ne _ _ _ _ hk]

theorem mergeFold_getKey_some (e : JsObject.Obj) (ks : List Str) (acc : JsObject.Obj)
    (k : Str) (v : Value) (hv : stepVal e k = some v) :
    JsObject.getKey (ks.foldl (JsObject.mergeStep e e) acc) k =
      if k ∈ ks then some v else JsObject.getKey acc k := by
  induction ks generalizing acc with
  | nil => simp
  | cons key ks ih =>
    rw [List.foldl_cons, ih]
    by_cases hk : k = key
    · subst hk
      rw [stepGet, if_pos rfl, hv]
      by_cases hm : k ∈ ks <;> simp [hm]
    · rw [stepGet, if_neg hk]
      simp [List.mem_cons, hk]

theorem mergeFold_getKey_none (e : JsObject.Obj) (ks : List Str) (acc : JsObject.Obj)
    (k : Str) (hv : stepVal e k = none) :
    JsObject.getKey (ks.foldl (JsObject.mergeStep e e) acc) k = JsObject.getKey acc k := by
  induction ks generalizing acc with
  | nil => simp
  | cons key ks ih =>
    rw [List.foldl_cons, ih]
    by_cases hk : k = key
    · subst hk
      rw [stepGet, if_pos rfl, hv]
    · rw [stepGet, if_neg hk]

theorem getKey_eq_none_iff (o : JsObject.Obj) (k : Str) :
    JsObject.getKey o k = none ↔ k ∉ JsObject.keys o := by
  induction o with
  | nil => simp [JsObject.getKey, JsObject.keys]
  | cons kv rest ih =>
    obtain ⟨k', v'⟩ := kv
    simp only [JsObject.getKey, JsObject.keys, List.map_cons, List.mem_cons, not_or]
    by_cases h : k' = k
    · subst h
      rw [if_pos rfl]
      constructor
      · intro hx
        cases hx
      · intro hx
        exact absurd rfl hx.1
    · rw [if_neg h]
      rw [ih]
      simp only [JsObject.keys]
      constructor
      · intro hx
        exact ⟨Ne.symm h, hx⟩
      · intro hx
        exact hx.2

/-! ## Dedup lemmas -/

theorem jsSetDedupGo_all_seen (seen xs : List Item) (h : ∀ x ∈ xs, x ∈ seen) :
    jsSetDedupGo seen xs = [] := by
  induction xs with
  | nil => rfl
  | cons x xs ih =>
    simp only [jsSetDedupGo, if_pos (h x (by simp))]
    exact ih (fun y hy => h y (by simp [hy]))

theorem jsSetDedupGo_fresh (xs : List Item) : ∀ (seen ys : List Item), xs.Nodup →
    (∀ x ∈ xs, x ∉ seen) →
    jsSetDedupGo seen (xs ++ ys) = xs ++ jsSetDedupGo (xs.reverse ++ seen) ys := by
  induction xs with
  | nil =>
    intro seen ys _ _
    simp
  | cons x xs ih =>
    intro seen ys hnd hfresh
    simp only [List.cons_append, jsSetDedupGo, List.append_eq]
    rw [if_neg (hfresh x (by simp))]
    rw [ih (x :: seen) ys (List.Nodup.of_cons hnd) ?_]
    · have : xs.reverse ++ (x :: seen) = (x :: xs).reverse ++ seen := by
        simp
      rw [this]
    · intro y hy
      simp only [List.mem_cons, not_or]
      exact ⟨fun hyx => (List.nodup_cons.mp hnd).1 (hyx ▸ hy), hfresh y (by simp [hy])⟩

theorem jsSetDedup_self (xs : List Item) (h : xs.Nodup) : jsSetDedup (xs ++ xs) = xs := by
  unfold jsSetDedup
  rw [jsSetDedupGo_fresh xs [] xs h (by simp)]
  rw [jsSetDedupGo_all_seen _ _ (fun x hx => by simp [hx])]
  simp

theorem serializeDedupGo_all_seen (seen ms : List Item) (h : ∀ m ∈ ms, mapSerialize m ∈ seen) :
    serializeDedupGo seen ms = [] := by
  induction ms with
  | nil => rfl
  | cons m ms ih =>
    simp only [serializeDedupGo, if_pos (h m (by simp))]
    exact ih (fun y hy => h y (by simp [hy]))

theorem serializeDedupGo_fresh (ms : List Item) : ∀ (seen : List Item) (ys : List Item),
    (ms.map mapSerialize).Nodup → (∀ m ∈ ms, mapSerialize m ∉ seen) →
    serializeDedupGo seen (ms ++ ys)
      = ms ++ serializeDedupGo ((ms.map mapSerialize).reverse ++ seen) ys := by
  induction ms with
  | nil =>
    intro seen ys _ _
    simp
  | cons m ms ih =>
    intro seen ys hnd hfresh
    simp only [List.cons_append, serializeDedupGo, List.append_eq]
    rw [if_neg (hfresh m (by simp))]
    rw [ih (mapSerialize m :: seen) ys ?_ ?_]
    · have : (ms.map mapSerialize).reverse ++ (mapSerialize m :: seen)
          = ((m :: ms).map mapSerialize).reverse ++ seen := by
        simp
      rw [this]
    · simpa using (List.Nodup.of_cons (by simpa using hnd))
    · intro y hy
      simp only [List.mem_cons, not_or]
      constructor
      · intro hyx
        have hmem : mapSerialize m ∈ ms.map mapSerialize := by
          rw [← hyx]
          exact List.mem_map_of_mem _ hy
        exact (List.nodup_cons.mp (by simpa using hnd)).1 hmem
      · exact hfresh y (by simp [hy])

theorem serializeDedup_self (ms : List Item) (h : (ms.map mapSerialize).Nodup) :
    serializeDedup (ms ++ ms) = ms := by
  unfold serializeDedup
  rw [serializeDedupGo_fresh ms [] ms h (by simp)]
  rw [serializeDedupGo_all_seen _ _ (fun m hm => by
    simp only [List.append_nil, List.mem_reverse]
    exact List.mem_map_of_mem _ hm)]
  simp

/-! ## C3: mergeElement throws on id mismatch; identity diff -/

/-- Claim C3: mergeElement throws exactly when the diff id differs from
the base id; and merging an element onto itself leaves every
non-accumulating key unchanged, reproduces condition and mapping when
their entries are pairwise distinct (under the source's serialised
comparison for mapping), and doubles the constraint array. -/
theorem C3_mergeElement_id_and_identity :
    (∀ base diff : JsObject.Obj,
      (∃ msg, JsObject.mergeElement base diff = .error msg)
        ↔ JsObject.getKey diff (str "id") ≠ JsObject.getKey base (str "id"))
    ∧ (∀ e merged : JsObject.Obj, JsObject.mergeElement e e = .ok merged →
        (∀ k, k ≠ str "constraint" → k ≠ str "condition" → k ≠ str "mapping" →
          JsObject.getKey merged k = JsObject.getKey e k)
        ∧ ((∀ v, JsObject.getKey e (str "condition") = some v →
              ∃ xs, v = Value.vArr xs ∧ xs.Nodup) →
            JsObject.getKey merged (str "condition") = JsObject.getKey e (str "condition"))
        ∧ ((∀ v, JsObject.getKey e (str "mapping") = some v →
              ∃ xs, v = Value.vArr xs ∧ (xs.map mapSerialize).Nodup) →
            JsObject.getKey merged (str "mapping") = JsObject.getKey e (str "mapping"))
        ∧ (JsObject.asArr (JsObject.getKey merged (str "constraint"))).length
            = 2 * (JsObject.asArr (JsObject.getKey e (str "constraint"))).length) := by
  constructor
  · intro base diff
    by_cases h : JsObject.getKey diff (str "id") = JsObject.getKey base (str "id")
    · simp [JsObject.mergeElement, h]
    · simp [JsObject.mergeElement, h]
  · intro e merged hok
    have hmerged : merged = (JsObject.keys e).foldl (JsObject.mergeStep e e) e := by
      unfold JsObject.mergeElement at hok
      rw [if_neg (by simp)] at hok
      cases hok
      rfl
    subst hmerged
    have hsvCond : stepVal e (str "condition") = some (.vArr (jsSetDedup
        (JsObject.asArr (JsObject.getKey e (str "condition"))
          ++ JsObject.asArr (JsObject.getKey e (str "condition"))))) := by
      unfold stepVal
      rw [if_pos (Or.inr (Or.inl rfl))]
      rw [if_neg (by decide), if_pos rfl]
    have hsvMap : stepVal e (str "mapping") = some (.vArr (serializeDedup
        (JsObject.asArr (JsObject.getKey e (str "mapping"))
          ++ JsObject.asArr (JsObject.getKey e (str "mapping"))))) := by
      unfold stepVal
      rw [if_pos (Or.inr (Or.inr rfl))]
      rw [if_neg (by decide), if_neg (by decide)]
    have hsvCons : stepVal e (str "constraint") = some (.vArr
        (JsObject.asArr (JsObject.getKey e (str "constraint"))
          ++ JsObject.asArr (JsObject.getKey e (str "constraint")))) := by
      unfold stepVal
      rw [if_pos (Or.inl rfl)]
      rw [if_pos rfl]
    refine ⟨?_, ?_, ?_, ?_⟩
    · intro k h1 h2 h3
      by_cases hip : k = str "id" ∨ k = str "path"
      · have hsv : stepVal e k = none := by
          unfold stepVal
          rw [if_neg (by simp [h1, h2, h3]), if_pos hip]
        rw [mergeFold_getKey_none e _ _ _ hsv]
      · cases hv : JsObject.getKey e k with
        | none =>
          have hsv : stepVal e k = none := by
            unfold stepVal
            rw [if_neg (by simp [h1, h2, h3]), if_neg hip, hv]
          rw [mergeFold_getKey_none e _ _ _ hsv, hv]
        | some v =>
          by_cases hu : v = Value.vUndef
          · have hsv : stepVal e k = none := by
              unfold stepVal
              rw [if_neg (by simp [h1, h2, h3]), if_neg hip, hv]
              simp [hu]
            rw [mergeFold_getKey_none e _ _ _ hsv, hv]
          · have hsv : stepVal e k = some v := by
              unfold stepVal
              rw [if_neg (by simp [h1, h2, h3]), if_neg hip, hv]
              simp [hu]
            rw [mergeFold_getKey_some e _ _ _ _ hsv, hv]
            have hk : k ∈ JsObject.keys e := by
              by_contra hx
              rw [← getKey_eq_none_iff e k] at hx
              rw [hx] at hv
              cases hv
            rw [if_pos hk]
    · intro hcond
      rw [mergeFold_getKey_some e _ _ _ _ hsvCond]
      by_cases hk : str "condition" ∈ JsObject.keys e
      · rw [if_pos hk]
        cases hv : JsObject.getKey e (str "condition") with
        | none =>
          rw [getKey_eq_none_iff] at hv
          exact absurd hk hv
        | some v =>
          obtain ⟨xs, hxs, hnd⟩ := hcond v hv
          subst hxs
          simp [JsObject.asArr, jsSetDedup_self xs hnd]
      · rw [if_neg hk]
    · intro hmap
      rw [mergeFold_getKey_some e _ _ _ _ hsvMap]
      by_cases hk : str "mapping" ∈ JsObject.keys e
      · rw [if_pos hk]
        cases hv : JsObject.getKey e (str "mapping") with
        | none =>
          rw [getKey_eq_none_iff] at hv
          exact absurd hk hv
        | some v =>
          obtain ⟨xs, hxs, hnd⟩ := hmap v hv
          subst hxs
          simp [JsObject.asArr, serializeDedup_self xs hnd]
      · rw [if_neg hk]
    · rw [mergeFold_getKey_some e _ _ _ _ hsvCons]
      by_cases hk : str "constraint" ∈ JsObject.keys e
      · rw [if_pos hk]
        simp [JsObject.asArr, Nat.two_mul]
      · rw [if_neg hk]
        have hnone : JsObject.getKey e (str "constraint") = none := by
          rw [getKey_eq_none_iff]
          exact hk
        simp [hnone, JsObject.asArr]

/-- Witness for C3 at a concrete element. -/
theorem C3_witness :
    JsObject.mergeElement c3Elem c3Elem = .ok c3Merged
      ∧ JsObject.getKey c3Merged (str "min") = JsObject.getKey c3Elem (str "min")
      ∧ JsObject.getKey c3Merged (str "condition") = JsObject.getKey c3Elem (str "condition")
      ∧ JsObject.getKey c3Merged (str "mapping") = JsObject.getKey c3Elem (str "mapping")
      ∧ (JsObject.asArr (JsObject.getKey c3Merged (str "constraint"))).length
          = 2 * (JsObject.asArr (JsObject.getKey c3Elem (str "constraint"))).length := by
  have hok : JsObject.mergeElement c3Elem c3Elem = .ok c3Merged := by rfl
  have h2 := C3_mergeElement_id_and_identity.2 c3Elem c3Merged hok
  refine ⟨hok, h2.1 (str "min") (by decide) (by decide) (by decide),
    h2.2.1 ?_, h2.2.2.1 ?_, h2.2.2.2⟩
  · intro v hv
    refine ⟨[Item.iAtom (Atom.aStr (str "ele-1")), Item.iAtom (Atom.aStr (str "dom-2"))], ?_, ?_⟩
    · have : JsObject.getKey c3Elem (str "condition") = some (Value.vArr
          [Item.iAtom (Atom.aStr (str "ele-1")), Item.iAtom (Atom.aStr (str "dom-2"))]) := by
        decide
      rw [this] at hv
      cases hv
      rfl
    · decide
  · intro v hv
    refine ⟨[Item.iObj [(str "identity", Atom.aStr (str "rim"))]], ?_, ?_⟩
    · have : JsObject.getKey c3Elem (str "mapping") = some (Value.vArr
          [Item.iObj [(str "identity", Atom.aStr (str "rim"))]]) := by
        decide
      rw [this] at hv
      cases hv
      rfl
    · decide

/-- Witness for C6: the amended rewrite at concrete prefixes. -/
theorem C6_witness :
    replaceId (str "Patient.name") (str "HumanName") (str "HumanName" ++ '.' :: str "family")
      = str "Patient.name" ++ '.' :: str "family"
    ∧ replacePath (str "Patient.name") (str "HumanName") (removeSlices (str "HumanName"))
      = removeSlices (str "HumanName") := by
  have h := C6_rewriteElementPaths_amended (str "Patient.name") (str "HumanName")
    (by decide) (by decide)
  exact ⟨h.2.2.1 (str "family"), h.2.2.2.2.1⟩

/-! ## C7: cache read corruption tolerance -/

/-- Counterexample to claim C7. First conjunct: for an existing, empty
cache file whose deletion fails with a plain IO error (EPERM), the
delete is not best-effort — the read neither returns absent nor
regenerates; the remove error propagates to the caller. Second
conjunct: a read IO error that is not a parse failure but whose message
contains the substring JSON does not propagate — it is misclassified as
corruption and swallowed into a cache miss. -/
theorem C7_counterexample :
    Cache.getSnapshotFromCache Cache.c7Env
      = { result := .error (.otherError (str "EPERM: operation not permitted, unlink"))
          removeCalls := 1 }
    ∧ Cache.getSnapshotFromCache c7SwallowEnv
      = { result := .ok none, removeCalls := 1 } :=
  ⟨rfl, rfl⟩

/-- Amended claim C7: the cache read's complete behaviour. An absent
file is a miss with no delete. A read IO error is swallowed into a miss
(with a best-effort delete) exactly when the classifier accepts it —
the classifier accepts every SyntaxError and any error whose message
contains a JSON parse-failure marker — and propagates otherwise. An
empty or whitespace-only file is deleted and is a miss if the delete
succeeds; a failing delete is re-classified: corrupt-looking delete
errors still give a miss (after a second, best-effort delete), any
other delete error propagates. A parse failure is a miss with a
best-effort delete when the classifier accepts it and propagates
otherwise; a successful parse is a hit with no delete. -/
theorem C7_cache_read_amended (env : Cache.Env) :
    (env.fileExists = false →
      Cache.getSnapshotFromCache env = { result := .ok none, removeCalls := 0 })
    ∧ (∀ e, env.fileExists = true → env.readResult = .error e →
        Cache.isCorruptCacheError e = true →
        Cache.getSnapshotFromCache env = { result := .ok none, removeCalls := 1 })
    ∧ (∀ e, env.fileExists = true → env.readResult = .error e →
        Cache.isCorruptCacheError e = false →
        Cache.getSnapshotFromCache env = { result := .error e, removeCalls := 0 })
    ∧ (∀ raw, env.fileExists = true → env.readResult = .ok raw →
        Cache.jsAllWhitespace raw = true → env.removeResult = .ok () →
        Cache.getSnapshotFromCache env = { result := .ok none, removeCalls := 1 })
    ∧ (∀ raw re, env.fileExists = true → env.readResult = .ok raw →
        Cache.jsAllWhitespace raw = true → env.removeResult = .error re →
        Cache.isCorruptCacheError re = true →
        Cache.getSnapshotFromCache env = { result := .ok none, removeCalls := 2 })
    ∧ (∀ raw re, env.fileExists = true → env.readResult = .ok raw →
        Cache.jsAllWhitespace raw = true → env.removeResult = .error re →
        Cache.isCorruptCacheError re = false →
        Cache.getSnapshotFromCache env = { result := .error re, removeCalls := 1 })
    ∧ (∀ raw v, env.fileExists = true → env.readResult = .ok raw →
        Cache.jsAllWhitespace raw = false → env.parse raw = .ok v →
        Cache.getSnapshotFromCache env = { result := .ok (some v), removeCalls := 0 })
    ∧ (∀ raw pe, env.fileExists = true → env.readResult = .ok raw →
        Cache.jsAllWhitespace raw = false → env.parse raw = .error pe →
        Cache.isCorruptCacheError pe = true →
        Cache.getSnapshotFromCache env = { result := .ok none, removeCalls := 1 })
    ∧ (∀ raw pe, env.fileExists = true → env.readResult = .ok raw →
        Cache.jsAllWhitespace raw = false → env.parse raw = .error pe →
        Cache.isCorruptCacheError pe = false →
        Cache.getSnapshotFromCache env = { result := .error pe, removeCalls := 0 }) := by
  refine ⟨?_, ?_, ?_, ?_, ?_, ?_, ?_, ?_, ?_⟩
  · intro h1
    simp [Cache.getSnapshotFromCache, h1]
  · intro e h1 h2 h3
    simp [Cache.getSnapshotFromCache, h1, h2, h3]
  · intro e h1 h2 h3
    simp [Cache.getSnapshotFromCache, h1, h2, h3]
  · intro raw h1 h2 h3 h4
    simp [Cache.getSnapshotFromCache, h1, h2, h3, h4]
  · intro raw re h1 h2 h3 h4 h5
    simp [Cache.getSnapshotFromCache, h1, h2, h3, h4, h5]
  · intro raw re h1 h2 h3 h4 h5
    simp [Cache.getSnapshotFromCache, h1, h2, h3, h4, h5]
  · intro raw v h1 h2 h3 h4
    simp [Cache.getSnapshotFromCache, h1, h2, h3, h4]
  · intro raw pe h1 h2 h3 h4 h5
    simp [Cache.getSnapshotFromCache, h1, h2, h3, h4, h5]
  · intro raw pe h1 h2 h3 h4 h5
    simp [Cache.getSnapshotFromCache, h1, h2, h3, h4, h5]

/-- Witness for the amended C7: a one-byte file whose parse fails with
a SyntaxError is a miss with one delete attempt. -/
theorem C7_witness :
    Cache.getSnapshotFromCache c7WitnessEnv = { result := .ok none, removeCalls := 1 } :=
  (C7_cache_read_amended c7WitnessEnv).2.2.2.2.2.2.2.1 (str "x")
    (.syntaxError (str "Unexpected token x in JSON at position 0"))
    rfl rfl (by decide) rfl (by decide)

/-! ## C2: the monopoly polymorphic shortcut scenario -/

/-- Claim C2: applying a differential entry addressed to
Observation.valueQuantity (the monopoly alias of Observation.value[x]
whose head declares types Quantity and string) produces an output in
which the canonical Observation.value[x] carries type = [Quantity] and
the entry's short constraint, and in which no element with id
Observation.valueQuantity appears. -/
theorem C2_polymorphic_shortcut :
    c2Run = .ok c2Expected
    ∧ c2Expected.map ElementDefinition.id
        = [str "Observation", str "Observation.value[x]"]
    ∧ (c2Expected.get? 1).map ElementDefinition.type
        = some (some [{ code := str "Quantity" }])
    ∧ (c2Expected.get? 1).map ElementDefinition.others
        = some [(str "short", Value.vAtom (Atom.aStr (str "constrained")))]
    ∧ c2Expected.all (fun e => decide (e.id ≠ str "Observation.valueQuantity")) = true :=
  ⟨rfl, rfl, rfl, rfl, rfl⟩

/-! ## C5: non-sliceable alias tolerance in ensureChild -/

/-- Claim C5: asking ensureChild for slice name:slice of a child that
exists but is not sliceable does not throw: when the requested slice
name is nonempty (an empty, JS-falsy slice name as in ensureChild.ts:87
makes the function return the array unchanged with no alias), it
returns the element array unchanged and records the alias
childId:slice mapped to the child's own id and path. In the
Composition.date:IssueDate scenario the differential is merged into the
non-sliceable date element itself, no sliceName remains on it, and no
extra element is created. -/
theorem C5_nonsliceable_alias :
    (∀ (elements : List ElementDefinition) (parentId childId : Str)
        (fetcher : DefinitionFetcher) (rwMap : RewriteMap)
        (pn0 : FhirTreeNode) (name sliceName : Str) (ce : FhirTreeNode),
      (elements.filter (fun el => decide (el.id = parentId)
        || (parentId ++ str ".").isPrefixOf el.id)).isEmpty = false →
      toTree (elements.filter (fun el => decide (el.id = parentId)
        || (parentId ++ str ".").isPrefixOf el.id)) = some pn0 →
      isNodeSliceable pn0 = false →
      0 < pn0.children.length →
      splitOnChar ':' childId = [name, sliceName] →
      sliceName.isEmpty = false →
      pn0.children.findOpt (fun el => ('.' :: name).isSuffixOf el.id) = some ce →
      isNodeSliceable ce = false →
      ensureChild elements parentId childId fetcher rwMap
        = .ok (elements, rwMapSet rwMap (ce.id ++ ':' :: sliceName) (ce.id, ce.path)))
    ∧ c5Run = .ok c5Expected
    ∧ c5Expected.map ElementDefinition.id = [str "Composition", str "Composition.date"]
    ∧ (c5Expected.get? 1).map ElementDefinition.sliceName = some none
    ∧ (c5Expected.get? 1).map ElementDefinition.others
        = some [(str "short", Value.vAtom (Atom.aStr (str "issued")))] := by
  refine ⟨?_, rfl, rfl, rfl, rfl⟩
  intro elements parentId childId fetcher rwMap pn0 name sliceName ce
    h0 h1 h2 h3 h4 h4e h5 h6
  simp only [ensureChild, h0, h1, h2, h4, h4e, h5, h6, Bind.bind, Except.bind, Pure.pure,
    Except.pure, Bool.false_eq_true, if_false, if_pos h3, List.headD, List.get?,
    Bool.not_false, if_true]
  exact if_pos not_false

/-- Witness for C5: the Composition.date:IssueDate request leaves the
working array unchanged and records the alias to the date element. -/
theorem C5_witness :
    ensureChild c5Base (str "Composition") (str "date:IssueDate") failFetcher []
      = .ok (c5Base, rwMapSet [] (c5CE.id ++ ':' :: str "IssueDate") (c5CE.id, c5CE.path)) :=
  C5_nonsliceable_alias.1 c5Base (str "Composition") (str "date:IssueDate") failFetcher []
    c5PN (str "date") (str "IssueDate") c5CE
    (by decide) (by rfl) (by decide) (by decide) (by decide) (by decide) (by rfl) (by decide)

/-! ## C4: expandNode guard order and snapshot-source selection -/

/-- Claim C4: expandNode throws on a sliceable node; is a no-op when
children are already present; fails when the definition is missing or
has neither type nor contentReference; and otherwise selects the
snapshot source exactly as: a truthy contentReference is resolved with
getContentReference and cleared from the definition; more than one type
uses getBaseType Element; a single type with a non-empty profile list
uses getByUrl on the first profile; a single type without profile uses
getBaseType on the type code. -/
theorem C4_expandNode_selection (node : FhirTreeNode) (fetcher : DefinitionFetcher) :
    (isNodeSliceable node = true →
      expandNode node fetcher
        = .error (str "node is sliceable, expand must target a slice or headslice"))
    ∧ (isNodeSliceable node = false → 0 < node.children.length →
      expandNode node fetcher = .ok node)
    ∧ (isNodeSliceable node = false → node.children.length = 0 →
      node.definition = none →
      expandNode node fetcher = .error (str "node has no ElementDefinition, cannot expand"))
    ∧ (∀ defn, isNodeSliceable node = false → node.children.length = 0 →
      node.definition = some defn →
      (defn.type = none ∨ defn.type = some []) →
      jsTruthyStr defn.contentReference = false →
      expandNode node fetcher
        = .error (str "node has no type or contentReference defined, cannot expand"))
    ∧ (∀ defn, isNodeSliceable node = false → node.children.length = 0 →
      node.definition = some defn →
      jsTruthyStr defn.contentReference = true →
      expandNode node fetcher
        = expandFrom node { defn with contentReference := none }
            (fetcher.getContentReference (defn.contentReference.getD [])))
    ∧ (∀ defn ts, isNodeSliceable node = false → node.children.length = 0 →
      node.definition = some defn →
      jsTruthyStr defn.contentReference = false → defn.type = some ts → 1 < ts.length →
      expandNode node fetcher = expandFrom node defn (fetcher.getBaseType (str "Element")))
    ∧ (∀ defn t u us, isNodeSliceable node = false → node.children.length = 0 →
      node.definition = some defn →
      jsTruthyStr defn.contentReference = false → defn.type = some [t] →
      t.profile = some (u :: us) →
      expandNode node fetcher = expandFrom node defn (fetcher.getByUrl u))
    ∧ (∀ defn t, isNodeSliceable node = false → node.children.length = 0 →
      node.definition = some defn →
      jsTruthyStr defn.contentReference = false → defn.type = some [t] →
      (t.profile = none ∨ t.profile = some []) →
      expandNode node fetcher = expandFrom node defn (fetcher.getBaseType t.code)) := by
  refine ⟨?_, ?_, ?_, ?_, ?_, ?_, ?_, ?_⟩
  · intro hsl
    simp [expandNode, hsl]
  · intro hsl hch
    simp [expandNode, hsl, hch, Nat.not_eq_zero_of_lt hch]
  · intro hsl hch hdef
    simp [expandNode, hsl, hch, hdef]
  · intro defn hsl hch hdef hty hcr
    cases hty with
    | inl h0 => simp [expandNode, hsl, hch, hdef, h0, hcr]
    | inr h0 => simp [expandNode, hsl, hch, hdef, h0, hcr]
  · intro defn hsl hch hdef hcr
    simp [expandNode, hsl, hch, hdef, hcr]
  · intro defn ts hsl hch hdef hcr hty hlen
    have hne : ¬ts.isEmpty = true := by
      cases ts with
      | nil => exact absurd hlen (by decide)
      | cons a l => simp [List.isEmpty]
    simp [expandNode, hsl, hch, hdef, hcr, hty, hne, hlen]
  · intro defn t u us hsl hch hdef hcr hty hprof
    simp [expandNode, hsl, hch, hdef, hcr, hty, hprof]
  · intro defn t hsl hch hdef hcr hty hprof
    cases hprof with
    | inl h0 => simp [expandNode, hsl, hch, hdef, hcr, hty, h0]
    | inr h0 => simp [expandNode, hsl, hch, hdef, hcr, hty, h0]

/-- Witness for C4: a two-type polymorphic leaf selects getBaseType
Element (and with a failing fetcher the expansion surfaces that
fetch's error). -/
theorem C4_witness :
    expandNode c4Node failFetcher
      = expandFrom c4Node c4Defn (failFetcher.getBaseType (str "Element"))
    ∧ expandNode c4Node failFetcher = .error (str "unavailable") := by
  have h := (C4_expandNode_selection c4Node failFetcher).2.2.2.2.2.1 c4Defn
    [{ code := str "Quantity" }, { code := str "string" }]
    (by decide) (by decide) rfl (by decide) rfl (by decide)
  exact ⟨h, by rw [h]; rfl⟩

/-! ## C8: base-library resolver candidate retention -/

theorem findCorePackage_mem (pkg : Resolver.PackageIdentifier)
    (deps : List Resolver.PackageIdentifier) (c : Resolver.PackageIdentifier)
    (hc : c ∈ Resolver.findCorePackage pkg deps) :
    Resolver.pkgAtStr c ∈ Resolver.coreValues := by
  unfold Resolver.findCorePackage at hc
  by_cases hp : Resolver.pkgAtStr pkg ∈ Resolver.coreValues
  · rw [if_pos hp] at hc
    rw [List.mem_singleton] at hc
    subst hc
    exact hp
  · rw [if_neg hp] at hc
    exact of_decide_eq_true (List.mem_filter.mp hc).2

theorem findCorePackage_not_r400 (pkg : Resolver.PackageIdentifier)
    (deps : List Resolver.PackageIdentifier) (c : Resolver.PackageIdentifier)
    (hc : c ∈ Resolver.findCorePackage pkg deps) :
    ¬(c.id = str "hl7.fhir.r4.core" ∧ c.version = str "4.0.0") := by
  intro hand
  have hm := findCorePackage_mem pkg deps c hc
  unfold Resolver.pkgAtStr at hm
  rw [hand.1, hand.2] at hm
  exact absurd hm (by decide)

/-- Counterexample to claim C8. The dependency hl7.fhir.r4.core@4.0.0
has a package id that matches the base-library id pattern, yet
findCorePackage does not retain it — candidates are matched as exact
id-at-version strings against the four known core releases, not by id
pattern — so with it as the only dependency the candidate list is empty
and the resolver fails (dereferencing the head of an empty list) rather
than returning the normalised hl7.fhir.r4.core@4.0.1. -/
theorem C8_counterexample :
    Resolver.isCoreLibraryId (str "hl7.fhir.r4.core") = true
    ∧ Resolver.findCorePackage Resolver.c8Pkg [Resolver.c8Dep] = []
    ∧ Resolver.resolveBasePackage Resolver.c8Pkg [Resolver.c8Dep] none
        = .error (str "TypeError: cannot read properties of undefined") :=
  ⟨rfl, rfl, rfl⟩

/-- Amended claim C8: for a profile package that is not itself a known
core release, the retained candidates are exactly the direct
dependencies whose id-at-version string is one of the four known core
releases; every retained candidate is one of those releases; in
particular no retained candidate is ever hl7.fhir.r4.core at version
4.0.0, so the 4.0.0-to-4.0.1 normalisation branch never fires on a
retained candidate; and a single retained candidate is returned
verbatim. -/
theorem C8_resolveBasePackage_amended :
    (∀ pkg deps, Resolver.pkgAtStr pkg ∉ Resolver.coreValues →
      Resolver.findCorePackage pkg deps
        = deps.filter (fun dep => decide (Resolver.pkgAtStr dep ∈ Resolver.coreValues)))
    ∧ (∀ pkg deps c, c ∈ Resolver.findCorePackage pkg deps →
        Resolver.pkgAtStr c ∈ Resolver.coreValues)
    ∧ (∀ pkg deps c, c ∈ Resolver.findCorePackage pkg deps →
        ¬(c.id = str "hl7.fhir.r4.core" ∧ c.version = str "4.0.0"))
    ∧ (∀ pkg deps c, Resolver.findCorePackage pkg deps = [c] →
        Resolver.resolveBasePackage pkg deps none = .ok (some (Resolver.pkgAtStr c))) := by
  refine ⟨?_, fun pkg deps c hc => findCorePackage_mem pkg deps c hc,
    fun pkg deps c hc => findCorePackage_not_r400 pkg deps c hc, ?_⟩
  · intro pkg deps hp
    unfold Resolver.findCorePackage
    rw [if_neg hp]
  · intro pkg deps c h
    have hdead := findCorePackage_not_r400 pkg deps c (by rw [h]; exact List.mem_singleton_self c)
    simp [Resolver.resolveBasePackage, h, Resolver.finishResolve, hdead, Resolver.pkgAtStr]

/-- Witness for the amended C8: with one pattern-matching but unknown
dependency and one known core dependency, exactly the known one is
retained and returned. -/
theorem C8_witness :
    Resolver.findCorePackage Resolver.c8Pkg [Resolver.c8Dep, Resolver.c8GoodDep]
      = [Resolver.c8GoodDep]
    ∧ Resolver.resolveBasePackage Resolver.c8Pkg [Resolver.c8Dep, Resolver.c8GoodDep] none
      = .ok (some (Resolver.pkgAtStr Resolver.c8GoodDep)) := by
  constructor
  · rw [C8_resolveBasePackage_amended.1 Resolver.c8Pkg [Resolver.c8Dep, Resolver.c8GoodDep]
      (by decide)]
    decide
  · exact C8_resolveBasePackage_amended.2.2.2 Resolver.c8Pkg [Resolver.c8Dep, Resolver.c8GoodDep]
      Resolver.c8GoodDep (by decide)

/-! ## C10: heap frame conditions for mergeElement and applySingleDiff -/

theorem getObj_modObj_ne (h : JsHeap.Heap) (r r' : JsHeap.Ref)
    (f : JsHeap.HObj → JsHeap.HObj) (hne : r' ≠ r) :
    JsHeap.getObj (JsHeap.modObj h r f) r' = JsHeap.getObj h r' := by
  induction h generalizing r r' with
  | nil => rfl
  | cons o t ih =>
    cases r with
    | zero =>
      cases r' with
      | zero => exact absurd rfl hne
      | succ k => rfl
    | succ k =>
      cases r' with
      | zero => rfl
      | succ k' =>
        show JsHeap.getObj (JsHeap.modObj t k f) k' = JsHeap.getObj t k'
        exact ih k k' (fun he => hne (by rw [he]))

theorem getObj_append_lt (h : JsHeap.Heap) (o : JsHeap.HObj) (r : JsHeap.Ref)
    (hr : r < h.length) :
    JsHeap.getObj (h ++ [o]) r = JsHeap.getObj h r := by
  unfold JsHeap.getObj
  exact List.get?_append hr

theorem getObj_mergeStepH_ne (base diff m : JsHeap.Ref) (h : JsHeap.Heap) (key : Str)
    (r : JsHeap.Ref) (hne : r ≠ m) :
    JsHeap.getObj (JsHeap.mergeStepH base diff m h key) r = JsHeap.getObj h r := by
  unfold JsHeap.mergeStepH JsHeap.setField
  split
  · split
    · exact getObj_modObj_ne h m r _ hne
    · split
      · exact getObj_modObj_ne h m r _ hne
      · exact getObj_modObj_ne h m r _ hne
  · split
    · rfl
    · split
      · split
        · rfl
        · exact getObj_modObj_ne h m r _ hne
      · rfl

theorem getObj_mergeFoldH_ne (base diff m : JsHeap.Ref) (ks : List Str)
    (h : JsHeap.Heap) (r : JsHeap.Ref) (hne : r ≠ m) :
    JsHeap.getObj (ks.foldl (JsHeap.mergeStepH base diff m) h) r = JsHeap.getObj h r := by
  induction ks generalizing h with
  | nil => rfl
  | cons k ks ih =>
    rw [List.foldl_cons, ih (JsHeap.mergeStepH base diff m h k)]
    exact getObj_mergeStepH_ne base diff m h k r hne

theorem getObj_sliceNameFixup_ne (h : JsHeap.Heap) (m r : JsHeap.Ref) (hne : r ≠ m) :
    JsHeap.getObj (JsHeap.sliceNameFixup h m) r = JsHeap.getObj h r := by
  unfold JsHeap.sliceNameFixup JsHeap.delField
  split
  · rfl
  · split
    · rfl
    · split
      · rfl
      · exact getObj_modObj_ne h m r _ hne

theorem mergeElementH_frame (h : JsHeap.Heap) (base diff : JsHeap.Ref)
    (h' : JsHeap.Heap) (m : JsHeap.Ref)
    (hok : JsHeap.mergeElement h base diff = Except.ok (h', m)) :
    m = h.length ∧ ∀ r, r < h.length → JsHeap.getObj h' r = JsHeap.getObj h r := by
  unfold JsHeap.mergeElement at hok
  split at hok
  · split at hok
    · exact absurd hok (by simp)
    · simp only [Except.ok.injEq, Prod.mk.injEq] at hok
      obtain ⟨hh, hm⟩ := hok
      subst hh
      subst hm
      refine ⟨rfl, ?_⟩
      intro r hr
      rw [getObj_mergeFoldH_ne base diff h.length _ _ r (Nat.ne_of_lt hr)]
      exact getObj_append_lt h _ r hr
  · exact absurd hok (by simp)

theorem applySingleDiffH_frame (h : JsHeap.Heap) (es : List JsHeap.Ref)
    (d : JsHeap.Ref) (h' : JsHeap.Heap) (es' : List JsHeap.Ref)
    (hok : JsHeap.applySingleDiff h es d = Except.ok (h', es')) :
    (∀ r, r < h.length → JsHeap.getObj h' r = JsHeap.getObj h r)
    ∧ ∃ i, i < es.length ∧ es' = es.take i ++ (h.length + 1) :: es.drop (i + 1) := by
  unfold JsHeap.applySingleDiff at hok
  split at hok
  · exact absurd hok (by simp)
  next dObj hd =>
    split at hok
    · exact absurd hok (by simp)
    next index hfi =>
      split at hok
      · exact absurd hok (by simp)
      next baseRef hgi =>
        split at hok
        next e hme => exact absurd hok (by simp)
        next h2 m hme =>
          simp only [Except.ok.injEq, Prod.mk.injEq] at hok
          obtain ⟨hh, hes⟩ := hok
          subst hh
          subst hes
          have hfr := mergeElementH_frame _ _ _ _ _ hme
          have hm : m = h.length + 1 := by
            have h1 := hfr.1
            simpa using h1
          constructor
          · intro r hr
            have hne2 : r ≠ m := by
              rw [hm]
              exact Nat.ne_of_lt (Nat.lt_succ_of_lt hr)
            have hlt2 : r < List.length (h ++ [(JsHeap.getObj h baseRef).getD []]) := by
              rw [List.length_append, List.length_singleton]
              exact Nat.lt_succ_of_lt hr
            rw [getObj_sliceNameFixup_ne h2 m r hne2]
            rw [hfr.2 r hlt2]
            exact getObj_append_lt h _ r hr
          · refine ⟨index, ?_, ?_⟩
            · obtain ⟨hlt, _⟩ := List.get?_eq_some.mp hgi
              exact hlt
            · rw [hm]

/-- Claim C10: neither heap-level operation writes to any
pre-existing reference. mergeElement returns a freshly allocated merged
object (at the old heap length) and leaves every old object unchanged;
applySingleDiff leaves every old object — the elements of the input
array and the diff included — unchanged and returns a new array equal
to the input with one position replaced by the fresh merged
reference. -/
theorem C10_no_mutation :
    (∀ (h : JsHeap.Heap) (base diff : JsHeap.Ref) (h' : JsHeap.Heap) (m : JsHeap.Ref),
        JsHeap.mergeElement h base diff = Except.ok (h', m) →
        m = h.length ∧ ∀ r, r < h.length → JsHeap.getObj h' r = JsHeap.getObj h r)
    ∧ (∀ (h : JsHeap.Heap) (es : List JsHeap.Ref) (d : JsHeap.Ref) (h' : JsHeap.Heap)
        (es' : List JsHeap.Ref),
        JsHeap.applySingleDiff h es d = Except.ok (h', es') →
        (∀ r, r < h.length → JsHeap.getObj h' r = JsHeap.getObj h r)
        ∧ ∃ i, i < es.length ∧ es' = es.take i ++ (h.length + 1) :: es.drop (i + 1)) :=
  ⟨fun h base diff h' m hok => mergeElementH_frame h base diff h' m hok,
   fun h es d h' es' hok => applySingleDiffH_frame h es d h' es' hok⟩

/-- Witness for C10 at a concrete two-object heap: applying a diff with
a stray sliceName to a one-element array leaves both original heap
objects untouched and returns the array with the fresh merged
reference. -/
theorem C10_witness :
    JsHeap.applySingleDiff c10Heap [0] 1 = Except.ok c10Out
    ∧ JsHeap.getObj c10Out.1 0 = JsHeap.getObj c10Heap 0
    ∧ JsHeap.getObj c10Out.1 1 = JsHeap.getObj c10Heap 1
    ∧ c10Out.2 = [c10Heap.length + 1] := by
  have hok : JsHeap.applySingleDiff c10Heap [0] 1 = Except.ok (c10Out.1, c10Out.2) := by
    rfl
  have hfr := (C10_no_mutation.2 c10Heap [0] 1 c10Out.1 c10Out.2 hok).1
  exact ⟨hok, hfr 0 (by decide), hfr 1 (by decide), by rfl⟩

/-! ## C1: the toTree/fromTree round trip

Structural lemmas about node lists, tree paths and the id map, then the
mutual insertion lemmas that replay an emitted subtree, and finally the
round-trip theorem for legal trees. -/

theorem children_withChildren (n : FhirTreeNode) (cs : NodeList) :
    (n.withChildren cs).children = cs := by
  cases n
  rfl

theorem withChildren_withChildren (n : FhirTreeNode) (a b : NodeList) :
    ((n.withChildren a).withChildren b) = n.withChildren b := by
  cases n
  rfl

theorem withChildren_children (n : FhirTreeNode) : n.withChildren n.children = n := by
  cases n
  rfl

theorem nodeType_withChildren (n : FhirTreeNode) (cs : NodeList) :
    (n.withChildren cs).nodeType = n.nodeType := by
  cases n
  rfl

theorem id_withChildren (n : FhirTreeNode) (cs : NodeList) :
    (n.withChildren cs).id = n.id := by
  cases n
  rfl

theorem sliceable_withChildren (n : FhirTreeNode) (cs : NodeList) :
    isNodeSliceable (n.withChildren cs) = isNodeSliceable n := by
  simp [isNodeSliceable, nodeType_withChildren]

theorem children_pushChild (c n : FhirTreeNode) :
    (pushChild c n).children = n.children.push c := by
  simp [pushChild, children_withChildren]

theorem sliceable_pushChild (c n : FhirTreeNode) :
    isNodeSliceable (pushChild c n) = isNodeSliceable n := by
  simp [pushChild, sliceable_withChildren]

theorem nlAppend_nil : (xs : NodeList) → xs.append .nil = xs
  | .nil => rfl
  | .cons hd tl => congrArg (NodeList.cons hd) (nlAppend_nil tl)

theorem nlAppend_push : (xs : NodeList) → (c : FhirTreeNode) → (tl : NodeList) →
    (xs.push c).append tl = xs.append (.cons c tl)
  | .nil, _, _ => rfl
  | .cons hd t, c, tl => congrArg (NodeList.cons hd) (nlAppend_push t c tl)

theorem nlLength_push : (xs : NodeList) → (c : FhirTreeNode) →
    (xs.push c).length = xs.length + 1
  | .nil, _ => rfl
  | .cons hd t, c => congrArg (fun m => m + 1) (nlLength_push t c)

theorem nlGet_push_len : (xs : NodeList) → (c : FhirTreeNode) →
    (xs.push c).get xs.length = some c
  | .nil, _ => rfl
  | .cons hd t, c => nlGet_push_len t c

theorem nlModifyIdx_comp : (xs : NodeList) → (i : Nat) →
    (f g : FhirTreeNode → FhirTreeNode) →
    (xs.modifyIdx i f).modifyIdx i g = xs.modifyIdx i (fun c => g (f c))
  | .nil, _, _, _ => rfl
  | .cons hd t, 0, _, _ => rfl
  | .cons hd t, i + 1, f, g => congrArg (NodeList.cons hd) (nlModifyIdx_comp t i f g)

theorem nlModifyIdx_push_len : (xs : NodeList) → (c : FhirTreeNode) →
    (f : FhirTreeNode → FhirTreeNode) →
    (xs.push c).modifyIdx xs.length f = xs.push (f c)
  | .nil, _, _ => rfl
  | .cons hd t, c, f => congrArg (NodeList.cons hd) (nlModifyIdx_push_len t c f)

theorem nlModifyIdx_id : (xs : NodeList) → (i : Nat) → xs.modifyIdx i (fun c => c) = xs
  | .nil, _ => rfl
  | .cons hd t, 0 => rfl
  | .cons hd t, i + 1 => congrArg (NodeList.cons hd) (nlModifyIdx_id t i)

theorem nlGet_modifyIdx_self : (xs : NodeList) → (i : Nat) → (c : FhirTreeNode) →
    (f : FhirTreeNode → FhirTreeNode) → xs.get i = some c →
    (xs.modifyIdx i f).get i = some (f c)
  | .nil, _, _, _, h => nomatch h
  | .cons hd t, 0, c, f, h => by cases h; rfl
  | .cons hd t, i + 1, c, f, h => nlGet_modifyIdx_self t i c f h

theorem nlModifyIdx_congr_at : (xs : NodeList) → (i : Nat) → (c : FhirTreeNode) →
    (f g : FhirTreeNode → FhirTreeNode) → xs.get i = some c → f c = g c →
    xs.modifyIdx i f = xs.modifyIdx i g
  | .nil, _, _, _, _, _, _ => rfl
  | .cons hd t, 0, c, f, g, h, hfg => by cases h; simp [NodeList.modifyIdx, hfg]
  | .cons hd t, i + 1, c, f, g, h, hfg =>
    congrArg (NodeList.cons hd) (nlModifyIdx_congr_at t i c f g h hfg)

theorem getAt_snoc (T : FhirTreeNode) (q : List Nat) (k : Nat) :
    getAt T (q ++ [k]) =
      match getAt T q with
      | some Q => Q.children.get k
      | none => none := by
  induction q generalizing T with
  | nil =>
    simp only [List.nil_append, getAt]
    cases h : T.children.get k with
    | none => rfl
    | some c => rfl
  | cons i p ih =>
    simp only [List.cons_append, getAt]
    cases h : T.children.get i with
    | none => rfl
    | some c => exact ih c

theorem modifyAt_snoc (T : FhirTreeNode) (q : List Nat) (k : Nat)
    (f : FhirTreeNode → FhirTreeNode) :
    modifyAt T (q ++ [k]) f
      = modifyAt T q (fun nd => nd.withChildren (nd.children.modifyIdx k f)) := by
  induction q generalizing T with
  | nil => rfl
  | cons i p ih =>
    simp only [List.cons_append, modifyAt, List.append_eq]
    have hfn : (fun c => modifyAt c (p ++ [k]) f)
        = fun c => modifyAt c p (fun nd => nd.withChildren (nd.children.modifyIdx k f)) :=
      funext fun c => ih c
    rw [hfn]

theorem getAt_modifyAt_self (T : FhirTreeNode) (q : List Nat) (Q : FhirTreeNode)
    (f : FhirTreeNode → FhirTreeNode) (h : getAt T q = some Q) :
    getAt (modifyAt T q f) q = some (f Q) := by
  induction q generalizing T with
  | nil =>
    cases h
    rfl
  | cons i p ih =>
    simp only [getAt] at h
    cases hc : T.children.get i with
    | none => rw [hc] at h; cases h
    | some c =>
      rw [hc] at h
      simp only [modifyAt, getAt, children_withChildren]
      rw [nlGet_modifyIdx_self T.children i c _ hc]
      exact ih c h

theorem modifyAt_modifyAt (T : FhirTreeNode) (q : List Nat)
    (f g : FhirTreeNode → FhirTreeNode) :
    modifyAt (modifyAt T q f) q g = modifyAt T q (fun x => g (f x)) := by
  induction q generalizing T with
  | nil => rfl
  | cons i p ih =>
    simp only [modifyAt, children_withChildren, withChildren_withChildren]
    rw [nlModifyIdx_comp]
    have hfn : (fun c => modifyAt (modifyAt c p f) p g)
        = fun c => modifyAt c p (fun x => g (f x)) := funext fun c => ih c
    rw [hfn]

theorem modifyAt_congr (T : FhirTreeNode) (q : List Nat)
    (f g : FhirTreeNode → FhirTreeNode) (h : ∀ x, f x = g x) :
    modifyAt T q f = modifyAt T q g := by
  have hf : f = g := funext h
  rw [hf]

theorem modifyAt_id (T : FhirTreeNode) (q : List Nat) :
    modifyAt T q (fun x => x) = T := by
  induction q generalizing T with
  | nil => rfl
  | cons i p ih =>
    simp only [modifyAt]
    have : (fun c => modifyAt c p (fun x => x)) = (fun c => c) := funext (fun c => ih c)
    rw [this, nlModifyIdx_id, withChildren_children]

theorem modifyAt_congr_at (T : FhirTreeNode) (q : List Nat) (Q : FhirTreeNode)
    (f g : FhirTreeNode → FhirTreeNode) (hQ : getAt T q = some Q) (h : f Q = g Q) :
    modifyAt T q f = modifyAt T q g := by
  induction q generalizing T with
  | nil =>
    cases hQ
    simp only [modifyAt, h]
  | cons i p ih =>
    simp only [getAt] at hQ
    cases hc : T.children.get i with
    | none => rw [hc] at hQ; cases hQ
    | some c =>
      rw [hc] at hQ
      simp only [modifyAt]
      rw [nlModifyIdx_congr_at T.children i c (fun x => modifyAt x p f)
        (fun x => modifyAt x p g) hc (ih c hQ)]

theorem mapGet_append_longer (regs M : IdMap) (X : Str)
    (h : ∀ kv ∈ regs, X.length < kv.1.length) :
    mapGet (regs ++ M) X = mapGet M X := by
  induction regs with
  | nil => rfl
  | cons kv rest ih =>
    simp only [List.cons_append, mapGet]
    have hne : kv.1 ≠ X := by
      intro he
      have := h kv (List.mem_cons_self kv rest)
      rw [he] at this
      exact Nat.lt_irrefl _ this
    rw [if_neg hne]
    exact ih (fun kv2 hm => h kv2 (List.mem_cons_of_mem kv hm))

theorem segOK_spec (seg : Str) (h : segOK seg = true) :
    ('.' : Char) ∉ seg ∧ (':' : Char) ∉ seg := by
  simp only [segOK, Bool.and_eq_true, Bool.not_eq_true'] at h
  exact ⟨by simpa using h.1.2, by simpa using h.2⟩

theorem dotExtends_spec (pid i : Str) (h : dotExtends pid i = true) :
    ∃ seg, i = pid ++ '.' :: seg ∧ segOK seg = true := by
  simp only [dotExtends, Bool.and_eq_true] at h
  obtain ⟨hpre, hseg⟩ := h
  obtain ⟨t, ht⟩ := List.isPrefixOf_iff_prefix.mp hpre
  have hdrop : i.drop (pid.length + 1) = t := by
    rw [← ht]
    have hlen : (pid ++ ['.']).length = pid.length + 1 := by simp
    rw [← hlen, List.drop_left]
  refine ⟨t, by rw [← ht]; simp, ?_⟩
  rwa [hdrop] at hseg

theorem colonExtends_spec (cid i : Str) (h : colonExtends cid i = true) :
    ∃ sn, i = cid ++ ':' :: sn ∧ segOK sn = true := by
  simp only [colonExtends, Bool.and_eq_true] at h
  obtain ⟨hpre, hseg⟩ := h
  obtain ⟨t, ht⟩ := List.isPrefixOf_iff_prefix.mp hpre
  have hdrop : i.drop (cid.length + 1) = t := by
    rw [← ht]
    have hlen : (cid ++ [':']).length = cid.length + 1 := by simp
    rw [← hlen, List.drop_left]
  refine ⟨t, by rw [← ht]; simp, ?_⟩
  rwa [hdrop] at hseg

theorem dotExtends_length (pid i : Str) (h : dotExtends pid i = true) :
    pid.length < i.length := by
  obtain ⟨seg, hid, _⟩ := dotExtends_spec pid i h
  rw [hid]
  simp

theorem colonExtends_length (cid i : Str) (h : colonExtends cid i = true) :
    cid.length < i.length := by
  obtain ⟨sn, hid, _⟩ := colonExtends_spec cid i h
  rw [hid]
  simp

theorem splitDots_dot_ext (pid seg : Str) (hdot : ('.' : Char) ∉ seg) :
    splitDots (pid ++ '.' :: seg) = splitDots pid ++ [seg] := by
  unfold splitDots
  rw [splitOnChar_append_sep, splitOnChar_not_mem '.' seg hdot]

theorem joinDots_splitDots (s : Str) : joinDots (splitDots s) = s :=
  joinSep_splitOnChar '.' s

theorem coreChecks_spec (i : Str) (iseg pseg : List Str)
    (h : coreChecks i iseg pseg = true) :
    iseg = splitDots i ∧ pseg = (splitDots i).map stripSlice := by
  simp only [coreChecks, Bool.and_eq_true, decide_eq_true_eq] at h
  exact h

theorem defnChecks_spec (i p : Str) (d : ElementDefinition)
    (h : defnChecks i p d = true) : d.id = i ∧ d.path = p := by
  simp only [defnChecks, Bool.and_eq_true, decide_eq_true_eq] at h
  exact h

theorem toNodeType_element_sn (d : ElementDefinition)
    (h : toNodeType d = .element) : jsTruthyStr d.sliceName = false := by
  unfold toNodeType at h
  by_cases h1 : (str "[x]").isSuffixOf d.id = true
  · rw [if_pos h1] at h
    exact absurd h (by decide)
  · rw [if_neg h1] at h
    by_cases h2 : jsTruthyStr d.sliceName = true
    · rw [if_pos h2] at h
      by_cases h3 : d.slicing.isSome = true
      · rw [if_pos h3] at h
        exact absurd h (by decide)
      · rw [if_neg h3] at h
        exact absurd h (by decide)
    · simpa using h2

theorem toNodeType_slice_sn (d : ElementDefinition)
    (h : toNodeType d = .slice) : jsTruthyStr d.sliceName = true := by
  unfold toNodeType at h
  by_cases h1 : (str "[x]").isSuffixOf d.id = true
  · rw [if_pos h1] at h
    exact absurd h (by decide)
  · rw [if_neg h1] at h
    by_cases h2 : jsTruthyStr d.sliceName = true
    · exact h2
    · rw [if_neg h2] at h
      by_cases h4 : jsBaseMaxMany d.base = true
      · rw [if_pos h4] at h
        exact absurd h (by decide)
      · rw [if_neg h4] at h
        exact absurd h (by decide)

theorem createNode_nonsliceable (e : ElementDefinition)
    (h : isSliceableType (toNodeType e) = false) :
    createNode e false = .mk e.id e.path (makeIdSegments e.id) (makePathSegments e.id)
      (toNodeType e) (some e)
      (if jsTruthyStr e.sliceName then e.sliceName else none) .nil := by
  simp [createNode, h]

theorem createNode_sliceable (e : ElementDefinition)
    (h : isSliceableType (toNodeType e) = true) :
    createNode e false = .mk e.id e.path (makeIdSegments e.id) (makePathSegments e.id)
      (toNodeType e) none none
      (.cons (.mk e.id e.path (makeIdSegments e.id) (makePathSegments e.id) .headslice
        (some e) none .nil) .nil) := by
  simp [createNode, h]

theorem createNode_force (e : ElementDefinition) :
    createNode e true = .mk e.id e.path (makeIdSegments e.id) (makePathSegments e.id)
      .element (some e)
      (if jsTruthyStr e.sliceName then e.sliceName else none) .nil := by
  simp [createNode, isSliceableType]

theorem insertOne_dot (root : FhirTreeNode) (M : IdMap) (e : ElementDefinition)
    (pid seg : Str) (p q : List Nat) (k : Nat)
    (hid : e.id = pid ++ '.' :: seg) (hseg : segOK seg = true)
    (hmap : mapGet M pid = some p) (hctx : attachCtx root p q k) :
    insertOne root M e
      = some (modifyAt root q (pushChild (createNode e false)), (e.id, q ++ [k]) :: M) := by
  obtain ⟨hdot, hcolon⟩ := segOK_spec seg hseg
  have hsplit : splitDots e.id = splitDots pid ++ [seg] := by
    rw [hid]
    exact splitDots_dot_ext pid seg hdot
  have hcontains : seg.contains ':' = false := by simpa using hcolon
  rcases hctx with ⟨P, hP, hsl, hq, hk⟩ | ⟨P, H, tl2, hP, hsl, hch, hq, hk⟩
  · subst hq
    subst hk
    simp [insertOne, hsplit, hcontains, hcolon, joinDots_splitDots, hmap, hP, hsl]
  · subst hq
    subst hk
    simp [insertOne, hsplit, hcontains, hcolon, joinDots_splitDots, hmap, hP, hsl, hch,
      NodeList.headOpt]

theorem insertOne_colon (root : FhirTreeNode) (M : IdMap) (e : ElementDefinition)
    (cid sn : Str) (ss : List Str) (last : Str) (p : List Nat) (P : FhirTreeNode)
    (hid : e.id = cid ++ ':' :: sn) (hsn : segOK sn = true)
    (hsplitCid : splitDots cid = ss ++ [last]) (hss : ss ≠ [])
    (hlastc : (':' : Char) ∉ last)
    (hmap : mapGet M cid = some p) (hP : getAt root p = some P)
    (hsl : isNodeSliceable P = true) :
    insertOne root M e
      = some (modifyAt root p (pushChild (createNode e false)),
        (e.id, p ++ [P.children.length]) :: M) := by
  obtain ⟨hdot, hcolon⟩ := segOK_spec sn hsn
  have hdy : ('.' : Char) ∉ (':' :: sn) := by
    intro hm
    rcases List.mem_cons.mp hm with h1 | h2
    · exact absurd h1 (by decide)
    · exact hdot h2
  have hsplit : splitDots e.id = ss ++ [last ++ ':' :: sn] := by
    rw [hid]
    exact splitOnChar_append_nosep '.' cid (':' :: sn) hdy ss last hsplitCid
  have hcontains : (last ++ ':' :: sn).contains ':' = true := by simp
  have hstrip : stripSlice (last ++ ':' :: sn) = last := stripSlice_append_colon last sn hlastc
  have hparent : joinDots ss ++ '.' :: last = cid := by
    have h1 : joinDots (ss ++ [last]) = joinDots ss ++ '.' :: last :=
      joinSep_append_last '.' ss last hss
    rw [← h1, ← hsplitCid]
    exact joinDots_splitDots cid
  simp [insertOne, hsplit, hcontains, hstrip, hparent, hmap, hP, hsl]

theorem wfChildrenB_cons (pid : Str) (c : FhirTreeNode) (tl : NodeList)
    (h : wfChildrenB pid (.cons c tl) = true) :
    wfDotChildB pid c = true ∧ wfChildrenB pid tl = true := by
  have h2 : (wfDotChildB pid c && wfChildrenB pid tl) = true := h
  simpa [Bool.and_eq_true] using h2

theorem wfSlicesB_cons (cid : Str) (c : FhirTreeNode) (tl : NodeList)
    (h : wfSlicesB cid (.cons c tl) = true) :
    wfSliceB cid c = true ∧ wfSlicesB cid tl = true := by
  have h2 : (wfSliceB cid c && wfSlicesB cid tl) = true := h
  simpa [Bool.and_eq_true] using h2

theorem wfContainerB_inv (i p : Str) (iseg pseg : List Str) (nt : NodeType)
    (cs : NodeList) (allowSlices : Bool)
    (h : wfContainerB i p iseg pseg nt cs allowSlices = true) :
    ∃ d hcs tl, cs = .cons (.mk i p iseg pseg .headslice (some d) none hcs) tl
      ∧ d.id = i ∧ d.path = p ∧ toNodeType d = nt ∧ wfChildrenB i hcs = true
      ∧ (allowSlices = true → wfSlicesB i tl = true)
      ∧ (allowSlices = false → tl = .nil) := by
  cases cs with
  | nil => exact absurd h (by simp [wfContainerB])
  | cons H tl =>
    cases H with
    | mk hi hp hiseg hpseg hnt hdefn hsn hcs =>
      cases hdefn with
      | none => exact absurd h (by simp [wfContainerB])
      | some d =>
        simp only [wfContainerB, Bool.and_eq_true, decide_eq_true_eq] at h
        obtain ⟨⟨⟨⟨⟨⟨hhi, hhp⟩, hhiseg⟩, hhpseg⟩, hhnt⟩, hhsn⟩, hdm⟩ := h
        obtain ⟨⟨⟨hdc, htnt⟩, hwc⟩, hrest⟩ := hdm
        obtain ⟨hdid, hdpath⟩ := defnChecks_spec i p d hdc
        subst hhi
        subst hhp
        subst hhiseg
        subst hhpseg
        subst hhnt
        subst hhsn
        refine ⟨d, hcs, tl, rfl, hdid, hdpath, htnt, hwc, ?_, ?_⟩
        · intro ha
          rw [ha] at hrest
          simpa using hrest
        · intro ha
          rw [ha] at hrest
          cases tl with
          | nil => rfl
          | cons a b => simp at hrest

theorem wfDotChildB_inv (pid i p : Str) (iseg pseg : List Str) (nt : NodeType)
    (defn : Option ElementDefinition) (sn : Option Str) (cs : NodeList)
    (h : wfDotChildB pid (.mk i p iseg pseg nt defn sn cs) = true) :
    dotExtends pid i = true ∧ iseg = splitDots i ∧ pseg = (splitDots i).map stripSlice
    ∧ ((∃ d, nt = .element ∧ defn = some d ∧ sn = none ∧ d.id = i ∧ d.path = p
          ∧ toNodeType d = .element ∧ wfChildrenB i cs = true)
       ∨ ((nt = .array ∨ nt = .poly) ∧ defn = none ∧ sn = none
          ∧ wfContainerB i p iseg pseg nt cs true = true)) := by
  cases nt with
  | element =>
    cases defn with
    | none => exact absurd h (by cases sn <;> simp [wfDotChildB])
    | some d =>
      cases sn with
      | some s => exact absurd h (by simp [wfDotChildB])
      | none =>
        simp only [wfDotChildB, Bool.and_eq_true, decide_eq_true_eq] at h
        obtain ⟨⟨hdx, hcore⟩, ⟨hdc, hnt⟩, hwc⟩ := h
        obtain ⟨hiseg, hpseg⟩ := coreChecks_spec i iseg pseg hcore
        obtain ⟨hdid, hdpath⟩ := defnChecks_spec i p d hdc
        exact ⟨hdx, hiseg, hpseg, Or.inl ⟨d, rfl, rfl, rfl, hdid, hdpath, hnt, hwc⟩⟩
  | array =>
    cases defn with
    | some d => exact absurd h (by cases sn <;> simp [wfDotChildB])
    | none =>
      cases sn with
      | some s => exact absurd h (by simp [wfDotChildB])
      | none =>
        simp only [wfDotChildB, Bool.and_eq_true] at h
        obtain ⟨⟨hdx, hcore⟩, hm⟩ := h
        obtain ⟨hiseg, hpseg⟩ := coreChecks_spec i iseg pseg hcore
        exact ⟨hdx, hiseg, hpseg, Or.inr ⟨Or.inl rfl, rfl, rfl, hm⟩⟩
  | poly =>
    cases defn with
    | some d => exact absurd h (by cases sn <;> simp [wfDotChildB])
    | none =>
      cases sn with
      | some s => exact absurd h (by simp [wfDotChildB])
      | none =>
        simp only [wfDotChildB, Bool.and_eq_true] at h
        obtain ⟨⟨hdx, hcore⟩, hm⟩ := h
        obtain ⟨hiseg, hpseg⟩ := coreChecks_spec i iseg pseg hcore
        exact ⟨hdx, hiseg, hpseg, Or.inr ⟨Or.inr rfl, rfl, rfl, hm⟩⟩
  | slice => exact absurd h (by cases defn <;> cases sn <;> simp [wfDotChildB])
  | resliced => exact absurd h (by cases defn <;> cases sn <;> simp [wfDotChildB])
  | headslice => exact absurd h (by cases defn <;> cases sn <;> simp [wfDotChildB])

theorem wfSliceB_inv (cid i p : Str) (iseg pseg : List Str) (nt : NodeType)
    (defn : Option ElementDefinition) (sn : Option Str) (cs : NodeList)
    (h : wfSliceB cid (.mk i p iseg pseg nt defn sn cs) = true) :
    colonExtends cid i = true ∧ iseg = splitDots i ∧ pseg = (splitDots i).map stripSlice
    ∧ ((∃ d, nt = .slice ∧ defn = some d ∧ d.id = i ∧ d.path = p
          ∧ toNodeType d = .slice ∧ sn = d.sliceName ∧ wfChildrenB i cs = true)
       ∨ (nt = .resliced ∧ defn = none ∧ sn = none
          ∧ wfContainerB i p iseg pseg .resliced cs false = true)) := by
  cases nt with
  | slice =>
    cases defn with
    | none => exact absurd h (by simp [wfSliceB])
    | some d =>
      simp only [wfSliceB, Bool.and_eq_true, decide_eq_true_eq] at h
      obtain ⟨⟨hcx, hcore⟩, ⟨⟨hdc, hnt⟩, hsn⟩, hwc⟩ := h
      obtain ⟨hiseg, hpseg⟩ := coreChecks_spec i iseg pseg hcore
      obtain ⟨hdid, hdpath⟩ := defnChecks_spec i p d hdc
      exact ⟨hcx, hiseg, hpseg, Or.inl ⟨d, rfl, rfl, hdid, hdpath, hnt, hsn, hwc⟩⟩
  | resliced =>
    cases defn with
    | some d => exact absurd h (by simp [wfSliceB])
    | none =>
      simp only [wfSliceB, Bool.and_eq_true, decide_eq_true_eq] at h
      obtain ⟨⟨hcx, hcore⟩, hsn, hcont⟩ := h
      obtain ⟨hiseg, hpseg⟩ := coreChecks_spec i iseg pseg hcore
      exact ⟨hcx, hiseg, hpseg, Or.inr ⟨rfl, rfl, hsn, hcont⟩⟩
  | element => exact absurd h (by cases defn <;> simp [wfSliceB])
  | array => exact absurd h (by cases defn <;> simp [wfSliceB])
  | poly => exact absurd h (by cases defn <;> simp [wfSliceB])
  | headslice => exact absurd h (by cases defn <;> simp [wfSliceB])

theorem wfRootB_inv (i p : Str) (iseg pseg : List Str) (nt : NodeType)
    (defn : Option ElementDefinition) (sn : Option Str) (cs : NodeList)
    (h : wfRootB (.mk i p iseg pseg nt defn sn cs) = true) :
    nt = .element ∧ iseg = splitDots i ∧ pseg = (splitDots i).map stripSlice
    ∧ ∃ d, defn = some d ∧ d.id = i ∧ d.path = p
      ∧ sn = (if jsTruthyStr d.sliceName then d.sliceName else none)
      ∧ wfChildrenB i cs = true := by
  cases defn with
  | none => exact absurd h (by simp [wfRootB])
  | some d =>
    simp only [wfRootB, Bool.and_eq_true, decide_eq_true_eq] at h
    obtain ⟨⟨hnt, hcore⟩, ⟨hdc, hsn⟩, hwc⟩ := h
    obtain ⟨hiseg, hpseg⟩ := coreChecks_spec i iseg pseg hcore
    obtain ⟨hdid, hdpath⟩ := defnChecks_spec i p d hdc
    exact ⟨hnt, hiseg, hpseg, d, rfl, hdid, hdpath, hsn, hwc⟩

theorem wfDotChildB_dotExtends (pid : Str) (c : FhirTreeNode)
    (h : wfDotChildB pid c = true) : dotExtends pid c.id = true := by
  cases c with
  | mk i p iseg pseg nt defn sn cs =>
    exact (wfDotChildB_inv pid i p iseg pseg nt defn sn cs h).1

theorem wfSliceB_colonExtends (cid : Str) (c : FhirTreeNode)
    (h : wfSliceB cid c = true) : colonExtends cid c.id = true := by
  cases c with
  | mk i p iseg pseg nt defn sn cs =>
    exact (wfSliceB_inv cid i p iseg pseg nt defn sn cs h).1

/-! Registered ids of a replayed subtree are at least as long as the
subtree root's id (hence strictly longer than any proper ancestor's). -/

mutual
theorem regsLen_dot : (n : FhirTreeNode) → (pid : Str) → (pi : List Nat) →
    wfDotChildB pid n = true →
    ∀ kv ∈ regsRevNode n pi, n.id.length ≤ kv.1.length
  | .mk i p iseg pseg nt defn sn cs, pid, pi, hwf => by
    obtain ⟨hdx, hiseg, hpseg, hcase⟩ := wfDotChildB_inv pid i p iseg pseg nt defn sn cs hwf
    rcases hcase with ⟨d, hnt, hdefn, hsn, hdid, hdpath, htn, hwc⟩ | ⟨hnt2, hdefn, hsn, hcont⟩
    · subst hnt
      subst hdefn
      subst hsn
      intro kv hm
      have hreg : regsRevNode (.mk i p iseg pseg .element (some d) none cs) pi
          = regsRevList cs pi 0 ++ [(i, pi)] := rfl
      rw [hreg] at hm
      rcases List.mem_append.mp hm with h1 | h2
      · exact Nat.le_of_lt (regsLen_children cs i pi 0 hwc kv h1)
      · have hkv : kv = (i, pi) := by simpa using h2
        subst hkv
        exact Nat.le_refl _
    · subst hdefn
      subst hsn
      obtain ⟨d, hcs, tl, hcseq, hdid, hdpath, htn, hwc, hsl, _⟩ :=
        wfContainerB_inv i p iseg pseg nt cs true hcont
      subst hcseq
      intro kv hm
      have hslt := hsl rfl
      have hreg : regsRevNode (.mk i p iseg pseg nt none none
          (.cons (.mk i p iseg pseg .headslice (some d) none hcs) tl)) pi
          = regsRevList tl pi 1 ++ regsRevList hcs (pi ++ [0]) 0 ++ [(i, pi)] := by
        rcases hnt2 with h | h
        · subst h
          rfl
        · subst h
          rfl
      rw [hreg] at hm
      rcases List.mem_append.mp hm with hm1 | h2
      · rcases List.mem_append.mp hm1 with h1 | h1
        · exact Nat.le_of_lt (regsLen_slices tl i pi 1 hslt kv h1)
        · exact Nat.le_of_lt (regsLen_children hcs i (pi ++ [0]) 0 hwc kv h1)
      · have hkv : kv = (i, pi) := by simpa using h2
        subst hkv
        exact Nat.le_refl _

theorem regsLen_slice : (n : FhirTreeNode) → (cid : Str) → (pi : List Nat) →
    wfSliceB cid n = true →
    ∀ kv ∈ regsRevNode n pi, n.id.length ≤ kv.1.length
  | .mk i p iseg pseg nt defn sn cs, cid, pi, hwf => by
    obtain ⟨hcx, hiseg, hpseg, hcase⟩ := wfSliceB_inv cid i p iseg pseg nt defn sn cs hwf
    rcases hcase with ⟨d, hnt, hdefn, hdid, hdpath, htn, hsn, hwc⟩ | ⟨hnt, hdefn, hsn, hcont⟩
    · subst hnt
      subst hdefn
      subst hsn
      intro kv hm
      have hreg : regsRevNode (.mk i p iseg pseg .slice (some d) d.sliceName cs) pi
          = regsRevList cs pi 0 ++ [(i, pi)] := rfl
      rw [hreg] at hm
      rcases List.mem_append.mp hm with h1 | h2
      · exact Nat.le_of_lt (regsLen_children cs i pi 0 hwc kv h1)
      · have hkv : kv = (i, pi) := by simpa using h2
        subst hkv
        exact Nat.le_refl _
    · subst hnt
      subst hdefn
      subst hsn
      obtain ⟨d, hcs, tl, hcseq, hdid, hdpath, htn, hwc, _, hnil⟩ :=
        wfContainerB_inv i p iseg pseg .resliced cs false hcont
      subst hcseq
      have htl := hnil rfl
      subst htl
      intro kv hm
      have hreg : regsRevNode (.mk i p iseg pseg .resliced none none
          (.cons (.mk i p iseg pseg .headslice (some d) none hcs) .nil)) pi
          = regsRevList hcs (pi ++ [0]) 0 ++ [(i, pi)] := rfl
      rw [hreg] at hm
      rcases List.mem_append.mp hm with h1 | h2
      · exact Nat.le_of_lt (regsLen_children hcs i (pi ++ [0]) 0 hwc kv h1)
      · have hkv : kv = (i, pi) := by simpa using h2
        subst hkv
        exact Nat.le_refl _

theorem regsLen_children : (cs : NodeList) → (pid : Str) → (pi : List Nat) → (k : Nat) →
    wfChildrenB pid cs = true →
    ∀ kv ∈ regsRevList cs pi k, pid.length < kv.1.length
  | .nil, pid, pi, k, hwf => by
    intro kv hm
    simp [regsRevList] at hm
  | .cons c tl, pid, pi, k, hwf => by
    obtain ⟨h1, h2⟩ := wfChildrenB_cons pid c tl hwf
    intro kv hm
    have hreg : regsRevList (.cons c tl) pi k
        = regsRevList tl pi (k + 1) ++ regsRevNode c (pi ++ [k]) := rfl
    rw [hreg] at hm
    rcases List.mem_append.mp hm with hm1 | hm2
    · exact regsLen_children tl pid pi (k + 1) h2 kv hm1
    · have hlt : pid.length < c.id.length :=
        dotExtends_length pid c.id (wfDotChildB_dotExtends pid c h1)
      exact Nat.lt_of_lt_of_le hlt (regsLen_dot c pid (pi ++ [k]) h1 kv hm2)

theorem regsLen_slices : (tl : NodeList) → (cid : Str) → (pi : List Nat) → (k : Nat) →
    wfSlicesB cid tl = true →
    ∀ kv ∈ regsRevList tl pi k, cid.length < kv.1.length
  | .nil, cid, pi, k, hwf => by
    intro kv hm
    simp [regsRevList] at hm
  | .cons c tl, cid, pi, k, hwf => by
    obtain ⟨h1, h2⟩ := wfSlicesB_cons cid c tl hwf
    intro kv hm
    have hreg : regsRevList (.cons c tl) pi k
        = regsRevList tl pi (k + 1) ++ regsRevNode c (pi ++ [k]) := rfl
    rw [hreg] at hm
    rcases List.mem_append.mp hm with hm1 | hm2
    · exact regsLen_slices tl cid pi (k + 1) h2 kv hm1
    · have hlt : cid.length < c.id.length :=
        colonExtends_length cid c.id (wfSliceB_colonExtends cid c h1)
      exact Nat.lt_of_lt_of_le hlt (regsLen_slice c cid (pi ++ [k]) h1 kv hm2)
end

theorem attachCtx_getAt (T : FhirTreeNode) (pp q : List Nat) (k : Nat)
    (h : attachCtx T pp q k) :
    ∃ Q, getAt T q = some Q ∧ k = Q.children.length := by
  rcases h with ⟨P, hP, hsl, hq, hk⟩ | ⟨P, H, tl, hP, hsl, hch, hq, hk⟩
  · subst hq
    exact ⟨P, hP, hk⟩
  · subst hq
    refine ⟨H, ?_, hk⟩
    rw [getAt_snoc]
    simp only [hP, hch]
    rfl

theorem attachCtx_push (T : FhirTreeNode) (pp q : List Nat) (k : Nat) (c : FhirTreeNode)
    (h : attachCtx T pp q k) :
    attachCtx (modifyAt T q (pushChild c)) pp q (k + 1) := by
  rcases h with ⟨P, hP, hsl, hq, hk⟩ | ⟨P, H, tl, hP, hsl, hch, hq, hk⟩
  · subst hq
    left
    refine ⟨pushChild c P, getAt_modifyAt_self T q P _ hP, ?_, rfl, ?_⟩
    · rw [sliceable_pushChild]
      exact hsl
    · rw [children_pushChild, nlLength_push, hk]
  · subst hq
    right
    rw [modifyAt_snoc]
    refine ⟨P.withChildren (P.children.modifyIdx 0 (pushChild c)), pushChild c H, tl,
      getAt_modifyAt_self T pp P _ hP, ?_, ?_, rfl, ?_⟩
    · rw [sliceable_withChildren]
      exact hsl
    · rw [children_withChildren, hch]
      rfl
    · rw [children_pushChild, nlLength_push, hk]

/-! A legal tree flattens without error, to exactly its emission. -/

mutual
theorem fromTree_dot : (n : FhirTreeNode) → (pid : Str) → wfDotChildB pid n = true →
    fromTree n = some (emitNode n)
  | .mk i p iseg pseg nt defn sn cs, pid, hwf => by
    obtain ⟨hdx, hiseg, hpseg, hcase⟩ := wfDotChildB_inv pid i p iseg pseg nt defn sn cs hwf
    rcases hcase with ⟨d, hnt, hdefn, hsn, hdid, hdpath, htn, hwc⟩ | ⟨hnt2, hdefn, hsn, hcont⟩
    · subst hnt
      subst hdefn
      subst hsn
      have hrest := fromTree_children cs i hwc
      have he : emitNode (.mk i p iseg pseg .element (some d) none cs)
          = d :: emitList cs := rfl
      have hedef : emitsDefinition NodeType.element = true := rfl
      rw [he]
      simp only [fromTree, hedef, hrest, if_true]
    · subst hdefn
      subst hsn
      obtain ⟨d, hcs, tl, hcseq, hdid, hdpath, htn, hwc, hsl, _⟩ :=
        wfContainerB_inv i p iseg pseg nt cs true hcont
      subst hcseq
      have hc := fromTree_children hcs i hwc
      have hs := fromTree_slices tl i (hsl rfl)
      have hH : fromTree (.mk i p iseg pseg .headslice (some d) none hcs)
          = some (d :: emitList hcs) := by
        have hedef : emitsDefinition NodeType.headslice = true := rfl
        simp only [fromTree, hedef, hc, if_true]
      rcases hnt2 with h | h
      · subst h
        have he : emitNode (.mk i p iseg pseg .array none none
            (.cons (.mk i p iseg pseg .headslice (some d) none hcs) tl))
            = (d :: emitList hcs) ++ emitList tl := rfl
        have hred : fromTree (.mk i p iseg pseg .array none none
            (.cons (.mk i p iseg pseg .headslice (some d) none hcs) tl))
            = fromTreeList (.cons (.mk i p iseg pseg .headslice (some d) none hcs) tl) := rfl
        rw [he, hred]
        simp only [fromTreeList, hH, hs]
      · subst h
        have he : emitNode (.mk i p iseg pseg .poly none none
            (.cons (.mk i p iseg pseg .headslice (some d) none hcs) tl))
            = (d :: emitList hcs) ++ emitList tl := rfl
        have hred : fromTree (.mk i p iseg pseg .poly none none
            (.cons (.mk i p iseg pseg .headslice (some d) none hcs) tl))
            = fromTreeList (.cons (.mk i p iseg pseg .headslice (some d) none hcs) tl) := rfl
        rw [he, hred]
        simp only [fromTreeList, hH, hs]

theorem fromTree_slice : (n : FhirTreeNode) → (cid : Str) → wfSliceB cid n = true →
    fromTree n = some (emitNode n)
  | .mk i p iseg pseg nt defn sn cs, cid, hwf => by
    obtain ⟨hcx, hiseg, hpseg, hcase⟩ := wfSliceB_inv cid i p iseg pseg nt defn sn cs hwf
    rcases hcase with ⟨d, hnt, hdefn, hdid, hdpath, htn, hsn, hwc⟩ | ⟨hnt, hdefn, hsn, hcont⟩
    · subst hnt
      subst hdefn
      subst hsn
      have hrest := fromTree_children cs i hwc
      have he : emitNode (.mk i p iseg pseg .slice (some d) d.sliceName cs)
          = d :: emitList cs := rfl
      have hedef : emitsDefinition NodeType.slice = true := rfl
      rw [he]
      simp only [fromTree, hedef, hrest, if_true]
    · subst hnt
      subst hdefn
      subst hsn
      obtain ⟨d, hcs, tl, hcseq, hdid, hdpath, htn, hwc, _, hnil⟩ :=
        wfContainerB_inv i p iseg pseg .resliced cs false hcont
      subst hcseq
      have htl := hnil rfl
      subst htl
      have hc := fromTree_children hcs i hwc
      have hH : fromTree (.mk i p iseg pseg .headslice (some d) none hcs)
          = some (d :: emitList hcs) := by
        have hedef : emitsDefinition NodeType.headslice = true := rfl
        simp only [fromTree, hedef, hc, if_true]
      have he : emitNode (.mk i p iseg pseg .resliced none none
          (.cons (.mk i p iseg pseg .headslice (some d) none hcs) .nil))
          = (d :: emitList hcs) ++ ([] : List ElementDefinition) := rfl
      have hred : fromTree (.mk i p iseg pseg .resliced none none
          (.cons (.mk i p iseg pseg .headslice (some d) none hcs) .nil))
          = fromTreeList (.cons (.mk i p iseg pseg .headslice (some d) none hcs) .nil) := rfl
      rw [he, hred]
      simp only [fromTreeList, hH]

theorem fromTree_children : (cs : NodeList) → (pid : Str) → wfChildrenB pid cs = true →
    fromTreeList cs = some (emitList cs)
  | .nil, pid, hwf => rfl
  | .cons c tl, pid, hwf => by
    obtain ⟨h1, h2⟩ := wfChildrenB_cons pid c tl hwf
    have hc := fromTree_dot c pid h1
    have ht := fromTree_children tl pid h2
    simp only [fromTreeList, hc, ht]
    rfl

theorem fromTree_slices : (tl : NodeList) → (cid : Str) → wfSlicesB cid tl = true →
    fromTreeList tl = some (emitList tl)
  | .nil, cid, hwf => rfl
  | .cons c tl, cid, hwf => by
    obtain ⟨h1, h2⟩ := wfSlicesB_cons cid c tl hwf
    have hc := fromTree_slice c cid h1
    have ht := fromTree_slices tl cid h2
    simp only [fromTreeList, hc, ht]
    rfl
end

theorem regsRevNode_nonsliceable (i p : Str) (iseg pseg : List Str) (nt : NodeType)
    (defn : Option ElementDefinition) (sn : Option Str) (cs : NodeList) (pi : List Nat)
    (h : isSliceableType nt = false) :
    regsRevNode (.mk i p iseg pseg nt defn sn cs) pi
      = regsRevList cs pi 0 ++ [(i, pi)] := by
  cases nt with
  | element => rfl
  | slice => rfl
  | headslice => rfl
  | array => exact absurd h (by decide)
  | poly => exact absurd h (by decide)
  | resliced => exact absurd h (by decide)

theorem regsRevNode_sliceable (i p : Str) (iseg pseg : List Str) (nt : NodeType)
    (defn : Option ElementDefinition) (sn : Option Str) (H : FhirTreeNode) (tl : NodeList)
    (pi : List Nat) (h : isSliceableType nt = true) :
    regsRevNode (.mk i p iseg pseg nt defn sn (.cons H tl)) pi
      = regsRevList tl pi 1 ++ regsRevList H.children (pi ++ [0]) 0 ++ [(i, pi)] := by
  cases H with
  | mk a b c2 d2 e f g hcs =>
    cases nt with
    | array => rfl
    | poly => rfl
    | resliced => rfl
    | element => exact absurd h (by decide)
    | slice => exact absurd h (by decide)
    | headslice => exact absurd h (by decide)

theorem emitNode_defn (i p : Str) (iseg pseg : List Str) (nt : NodeType)
    (d : ElementDefinition) (sn : Option Str) (cs : NodeList)
    (h : emitsDefinition nt = true) :
    emitNode (.mk i p iseg pseg nt (some d) sn cs) = d :: emitList cs := by
  cases nt with
  | element => rfl
  | slice => rfl
  | headslice => rfl
  | array => exact absurd h (by decide)
  | poly => exact absurd h (by decide)
  | resliced => exact absurd h (by decide)

theorem emitNode_nodefn (i p : Str) (iseg pseg : List Str) (nt : NodeType)
    (defn : Option ElementDefinition) (sn : Option Str) (cs : NodeList)
    (h : emitsDefinition nt = false) :
    emitNode (.mk i p iseg pseg nt defn sn cs) = emitList cs := by
  cases nt with
  | array => rfl
  | poly => rfl
  | resliced => rfl
  | element => exact absurd h (by decide)
  | slice => exact absurd h (by decide)
  | headslice => exact absurd h (by decide)

theorem emitList_cons (c : FhirTreeNode) (tl : NodeList) :
    emitList (.cons c tl) = emitNode c ++ emitList tl := rfl

theorem isNodeSliceable_mk (i p : Str) (iseg pseg : List Str) (nt : NodeType)
    (defn : Option ElementDefinition) (sn : Option Str) (cs : NodeList) :
    isNodeSliceable (.mk i p iseg pseg nt defn sn cs) = isSliceableType nt := rfl

theorem emitsDefinition_of_sliceable (nt : NodeType) (h : isSliceableType nt = true) :
    emitsDefinition nt = false := by
  cases nt <;> revert h <;> decide

theorem insertList_append (xs ys : List ElementDefinition) (T : FhirTreeNode)
    (M : IdMap) (T1 : FhirTreeNode) (M1 : IdMap)
    (h : insertList T M xs = some (T1, M1)) :
    insertList T M (xs ++ ys) = insertList T1 M1 ys := by
  induction xs generalizing T M with
  | nil =>
    simp only [insertList] at h
    cases h
    rfl
  | cons e es ih =>
    simp only [List.cons_append, insertList] at h ⊢
    cases ho : insertOne T M e with
    | none => rw [ho] at h; cases h
    | some tm =>
      rw [ho] at h
      exact ih tm.1 tm.2 h

/-! Replaying the emission of a legal subtree into a partially rebuilt
tree rebuilds the subtree exactly, at the attachment point the id map
designates, and extends the map by the subtree's registrations. -/

mutual
theorem insDot : (n : FhirTreeNode) → (pid : Str) → (T : FhirTreeNode) → (M : IdMap) →
    (pp q : List Nat) → (k : Nat) →
    wfDotChildB pid n = true →
    mapGet M pid = some pp →
    attachCtx T pp q k →
    insertList T M (emitNode n)
      = some (modifyAt T q (pushChild n), regsRevNode n (q ++ [k]) ++ M)
  | .mk i p iseg pseg nt defn sn cs, pid, T, M, pp, q, k, hwf, hmap, hctx => by
    obtain ⟨hdx, hiseg, hpseg, hcase⟩ := wfDotChildB_inv pid i p iseg pseg nt defn sn cs hwf
    obtain ⟨Q, hQ, hk⟩ := attachCtx_getAt T pp q k hctx
    obtain ⟨seg, hidseg, hsegOK⟩ := dotExtends_spec pid i hdx
    rcases hcase with ⟨d, hnt, hdefn, hsn, hdid, hdpath, htn, hwc⟩ | ⟨hnt2, hdefn, hsn, hcont⟩
    · subst hnt
      subst hdefn
      subst hsn
      have hemit : emitNode (.mk i p iseg pseg .element (some d) none cs)
          = d :: emitList cs := emitNode_defn i p iseg pseg .element d none cs rfl
      have hshell : createNode d false = .mk i p iseg pseg .element (some d) none .nil := by
        have hns : isSliceableType (toNodeType d) = false := by rw [htn]; rfl
        have hsnf := toNodeType_element_sn d htn
        rw [createNode_nonsliceable d hns]
        simp [hdid, hdpath, htn, hsnf, makeIdSegments, makePathSegments, hiseg, hpseg]
      have h1 : insertOne T M d
          = some (modifyAt T q (pushChild (createNode d false)), (d.id, q ++ [k]) :: M) :=
        insertOne_dot T M d pid seg pp q k (by rw [hdid]; exact hidseg) hsegOK hmap hctx
      rw [hshell] at h1
      have hmap1 : mapGet ((d.id, q ++ [k]) :: M) i = some (q ++ [k]) := by
        simp [mapGet, hdid]
      have hg1 : getAt (modifyAt T q
            (pushChild (.mk i p iseg pseg .element (some d) none .nil))) q
          = some (pushChild (.mk i p iseg pseg .element (some d) none .nil) Q) :=
        getAt_modifyAt_self T q Q _ hQ
      have hshlQ : getAt (modifyAt T q
            (pushChild (.mk i p iseg pseg .element (some d) none .nil))) (q ++ [k])
          = some (.mk i p iseg pseg .element (some d) none .nil) := by
        rw [getAt_snoc]
        simp only [hg1]
        rw [children_pushChild, hk]
        exact nlGet_push_len Q.children _
      have hctx1 : attachCtx (modifyAt T q
            (pushChild (.mk i p iseg pseg .element (some d) none .nil)))
          (q ++ [k]) (q ++ [k]) 0 :=
        Or.inl ⟨_, hshlQ, rfl, rfl, rfl⟩
      have h2 := insChildren cs i
        (modifyAt T q (pushChild (.mk i p iseg pseg .element (some d) none .nil)))
        ((d.id, q ++ [k]) :: M) (q ++ [k]) (q ++ [k]) 0 hwc hmap1 hctx1
      rw [hemit]
      have hstep : insertList T M (d :: emitList cs)
          = insertList
              (modifyAt T q (pushChild (.mk i p iseg pseg .element (some d) none .nil)))
              ((d.id, q ++ [k]) :: M) (emitList cs) := by
        simp only [insertList, h1]
      rw [hstep, h2]
      have htree : modifyAt
            (modifyAt T q (pushChild (.mk i p iseg pseg .element (some d) none .nil)))
            (q ++ [k]) (appendChildren cs)
          = modifyAt T q (pushChild (.mk i p iseg pseg .element (some d) none cs)) := by
        rw [modifyAt_snoc, modifyAt_modifyAt]
        apply modifyAt_congr_at T q Q _ _ hQ
        show (pushChild (.mk i p iseg pseg .element (some d) none .nil) Q).withChildren
            (((pushChild (.mk i p iseg pseg .element (some d) none .nil) Q).children).modifyIdx
              k (appendChildren cs))
          = pushChild (.mk i p iseg pseg .element (some d) none cs) Q
        rw [children_pushChild, hk, nlModifyIdx_push_len]
        simp only [pushChild, withChildren_withChildren]
        rfl
      have hregs : regsRevList cs (q ++ [k]) 0 ++ ((d.id, q ++ [k]) :: M)
          = regsRevNode (.mk i p iseg pseg .element (some d) none cs) (q ++ [k]) ++ M := by
        rw [regsRevNode_nonsliceable i p iseg pseg .element (some d) none cs (q ++ [k]) rfl]
        rw [hdid]
        simp
      rw [htree, hregs]
    · subst hdefn
      subst hsn
      obtain ⟨d, hcs, tl, hcseq, hdid, hdpath, htn, hwc, hsl0, _⟩ :=
        wfContainerB_inv i p iseg pseg nt cs true hcont
      subst hcseq
      have hslt := hsl0 rfl
      have hsltype : isSliceableType nt = true := by
        rcases hnt2 with h | h
        · subst h
          rfl
        · subst h
          rfl
      have hedef : emitsDefinition nt = false := emitsDefinition_of_sliceable nt hsltype
      have hnsl : isSliceableType (toNodeType d) = true := by rw [htn]; exact hsltype
      have hshell : createNode d false = .mk i p iseg pseg nt none none
          (.cons (.mk i p iseg pseg .headslice (some d) none .nil) .nil) := by
        rw [createNode_sliceable d hnsl]
        simp [hdid, hdpath, htn, makeIdSegments, makePathSegments, hiseg, hpseg]
      have hemit : emitNode (.mk i p iseg pseg nt none none
            (.cons (.mk i p iseg pseg .headslice (some d) none hcs) tl))
          = d :: (emitList hcs ++ emitList tl) := by
        rw [emitNode_nodefn i p iseg pseg nt none none _ hedef, emitList_cons,
          emitNode_defn i p iseg pseg .headslice d none hcs rfl]
        rfl
      have h1 : insertOne T M d
          = some (modifyAt T q (pushChild (createNode d false)), (d.id, q ++ [k]) :: M) :=
        insertOne_dot T M d pid seg pp q k (by rw [hdid]; exact hidseg) hsegOK hmap hctx
      rw [hshell] at h1
      have hmap1 : mapGet ((d.id, q ++ [k]) :: M) i = some (q ++ [k]) := by
        simp [mapGet, hdid]
      have hg1 : getAt (modifyAt T q (pushChild (.mk i p iseg pseg nt none none
            (.cons (.mk i p iseg pseg .headslice (some d) none .nil) .nil)))) q
          = some (pushChild (.mk i p iseg pseg nt none none
            (.cons (.mk i p iseg pseg .headslice (some d) none .nil) .nil)) Q) :=
        getAt_modifyAt_self T q Q _ hQ
      have hshlQ : getAt (modifyAt T q (pushChild (.mk i p iseg pseg nt none none
            (.cons (.mk i p iseg pseg .headslice (some d) none .nil) .nil)))) (q ++ [k])
          = some (.mk i p iseg pseg nt none none
            (.cons (.mk i p iseg pseg .headslice (some d) none .nil) .nil)) := by
        rw [getAt_snoc]
        simp only [hg1]
        rw [children_pushChild, hk]
        exact nlGet_push_len Q.children _
      have hctx1 : attachCtx (modifyAt T q (pushChild (.mk i p iseg pseg nt none none
            (.cons (.mk i p iseg pseg .headslice (some d) none .nil) .nil))))
          (q ++ [k]) ((q ++ [k]) ++ [0]) 0 :=
        Or.inr ⟨_, .mk i p iseg pseg .headslice (some d) none .nil, .nil, hshlQ,
          by rw [isNodeSliceable_mk]; exact hsltype, rfl, rfl, rfl⟩
      have h2 := insChildren hcs i
        (modifyAt T q (pushChild (.mk i p iseg pseg nt none none
          (.cons (.mk i p iseg pseg .headslice (some d) none .nil) .nil))))
        ((d.id, q ++ [k]) :: M) (q ++ [k]) ((q ++ [k]) ++ [0]) 0 hwc hmap1 hctx1
      have hmap2 : mapGet (regsRevList hcs ((q ++ [k]) ++ [0]) 0
            ++ ((d.id, q ++ [k]) :: M)) i = some (q ++ [k]) := by
        rw [mapGet_append_longer _ _ i
          (fun kv hm => regsLen_children hcs i _ 0 hwc kv hm)]
        exact hmap1
      have hC1 : getAt (modifyAt (modifyAt T q (pushChild (.mk i p iseg pseg nt none none
              (.cons (.mk i p iseg pseg .headslice (some d) none .nil) .nil))))
            ((q ++ [k]) ++ [0]) (appendChildren hcs)) (q ++ [k])
          = some (.mk i p iseg pseg nt none none
            (.cons (.mk i p iseg pseg .headslice (some d) none hcs) .nil)) := by
        rw [modifyAt_snoc]
        rw [getAt_modifyAt_self _ _ _ _ hshlQ]
        rfl
      have hsl1 : isNodeSliceable (.mk i p iseg pseg nt none none
          (.cons (.mk i p iseg pseg .headslice (some d) none hcs) .nil)) = true := by
        rw [isNodeSliceable_mk]
        exact hsltype
      have hssne : splitDots i = splitDots pid ++ [seg] := by
        rw [hidseg]
        exact splitDots_dot_ext pid seg (segOK_spec seg hsegOK).1
      have h3 := insSlices tl i (splitDots pid) seg
        (modifyAt (modifyAt T q (pushChild (.mk i p iseg pseg nt none none
          (.cons (.mk i p iseg pseg .headslice (some d) none .nil) .nil))))
          ((q ++ [k]) ++ [0]) (appendChildren hcs))
        (regsRevList hcs ((q ++ [k]) ++ [0]) 0 ++ ((d.id, q ++ [k]) :: M))
        (q ++ [k])
        (.mk i p iseg pseg nt none none
          (.cons (.mk i p iseg pseg .headslice (some d) none hcs) .nil))
        hslt hssne (splitOnChar_ne_nil '.' pid) (segOK_spec seg hsegOK).2 hmap2 hC1 hsl1
      rw [hemit]
      have hstep : insertList T M (d :: (emitList hcs ++ emitList tl))
          = insertList
              (modifyAt T q (pushChild (.mk i p iseg pseg nt none none
                (.cons (.mk i p iseg pseg .headslice (some d) none .nil) .nil))))
              ((d.id, q ++ [k]) :: M) (emitList hcs ++ emitList tl) := by
        simp only [insertList, h1]
      rw [hstep]
      rw [insertList_append _ _ _ _ _ _ h2]
      rw [h3]
      have hone : (FhirTreeNode.mk i p iseg pseg nt none none
          (.cons (.mk i p iseg pseg .headslice (some d) none hcs) .nil)).children.length
          = 1 := rfl
      rw [hone]
      have htree : modifyAt (modifyAt (modifyAt T q (pushChild (.mk i p iseg pseg nt none
              none (.cons (.mk i p iseg pseg .headslice (some d) none .nil) .nil))))
            ((q ++ [k]) ++ [0]) (appendChildren hcs)) (q ++ [k]) (appendChildren tl)
          = modifyAt T q (pushChild (.mk i p iseg pseg nt none none
            (.cons (.mk i p iseg pseg .headslice (some d) none hcs) tl))) := by
        rw [modifyAt_snoc _ (q ++ [k]) 0]
        rw [modifyAt_modifyAt]
        rw [modifyAt_snoc _ q k]
        rw [modifyAt_modifyAt]
        apply modifyAt_congr_at T q Q _ _ hQ
        simp only [children_pushChild]
        rw [hk, nlModifyIdx_push_len]
        simp only [pushChild, withChildren_withChildren]
        rfl
      have hregs : regsRevList tl (q ++ [k]) 1
            ++ (regsRevList hcs ((q ++ [k]) ++ [0]) 0 ++ ((d.id, q ++ [k]) :: M))
          = regsRevNode (.mk i p iseg pseg nt none none
              (.cons (.mk i p iseg pseg .headslice (some d) none hcs) tl)) (q ++ [k])
            ++ M := by
        rw [regsRevNode_sliceable i p iseg pseg nt none none _ tl (q ++ [k]) hsltype]
        rw [hdid]
        simp [FhirTreeNode.children]
      rw [htree, hregs]

theorem insSlice : (n : FhirTreeNode) → (cid : Str) → (ss : List Str) → (lastSeg : Str) →
    (T : FhirTreeNode) → (M : IdMap) → (pp : List Nat) → (C : FhirTreeNode) →
    wfSliceB cid n = true →
    splitDots cid = ss ++ [lastSeg] → ss ≠ [] → (':' : Char) ∉ lastSeg →
    mapGet M cid = some pp →
    getAt T pp = some C → isNodeSliceable C = true →
    insertList T M (emitNode n)
      = some (modifyAt T pp (pushChild n), regsRevNode n (pp ++ [C.children.length]) ++ M)
  | .mk i p iseg pseg nt defn sn cs, cid, ss, lastSeg, T, M, pp, C,
      hwf, hsplit, hss, hlastc, hmap, hC, hsl => by
    obtain ⟨hcx, hiseg, hpseg, hcase⟩ := wfSliceB_inv cid i p iseg pseg nt defn sn cs hwf
    obtain ⟨sn2, hidseg, hsegOK⟩ := colonExtends_spec cid i hcx
    rcases hcase with ⟨d, hnt, hdefn, hdid, hdpath, htn, hsn, hwc⟩ | ⟨hnt, hdefn, hsn, hcont⟩
    · subst hnt
      subst hdefn
      subst hsn
      have hemit : emitNode (.mk i p iseg pseg .slice (some d) d.sliceName cs)
          = d :: emitList cs := emitNode_defn i p iseg pseg .slice d d.sliceName cs rfl
      have hshell : createNode d false
          = .mk i p iseg pseg .slice (some d) d.sliceName .nil := by
        have hns : isSliceableType (toNodeType d) = false := by rw [htn]; rfl
        have hsnt := toNodeType_slice_sn d htn
        rw [createNode_nonsliceable d hns]
        simp [hdid, hdpath, htn, hsnt, makeIdSegments, makePathSegments, hiseg, hpseg]
      have h1 : insertOne T M d
          = some (modifyAt T pp (pushChild (createNode d false)),
            (d.id, pp ++ [C.children.length]) :: M) :=
        insertOne_colon T M d cid sn2 ss lastSeg pp C (by rw [hdid]; exact hidseg) hsegOK
          hsplit hss hlastc hmap hC hsl
      rw [hshell] at h1
      have hmap1 : mapGet ((d.id, pp ++ [C.children.length]) :: M) i
          = some (pp ++ [C.children.length]) := by
        simp [mapGet, hdid]
      have hg1 : getAt (modifyAt T pp
            (pushChild (.mk i p iseg pseg .slice (some d) d.sliceName .nil))) pp
          = some (pushChild (.mk i p iseg pseg .slice (some d) d.sliceName .nil) C) :=
        getAt_modifyAt_self T pp C _ hC
      have hshlQ : getAt (modifyAt T pp
            (pushChild (.mk i p iseg pseg .slice (some d) d.sliceName .nil)))
            (pp ++ [C.children.length])
          = some (.mk i p iseg pseg .slice (some d) d.sliceName .nil) := by
        rw [getAt_snoc]
        simp only [hg1]
        rw [children_pushChild]
        exact nlGet_push_len C.children _
      have hctx1 : attachCtx (modifyAt T pp
            (pushChild (.mk i p iseg pseg .slice (some d) d.sliceName .nil)))
          (pp ++ [C.children.length]) (pp ++ [C.children.length]) 0 :=
        Or.inl ⟨_, hshlQ, rfl, rfl, rfl⟩
      have h2 := insChildren cs i
        (modifyAt T pp (pushChild (.mk i p iseg pseg .slice (some d) d.sliceName .nil)))
        ((d.id, pp ++ [C.children.length]) :: M)
        (pp ++ [C.children.length]) (pp ++ [C.children.length]) 0 hwc hmap1 hctx1
      rw [hemit]
      have hstep : insertList T M (d :: emitList cs)
          = insertList
              (modifyAt T pp (pushChild (.mk i p iseg pseg .slice (some d) d.sliceName .nil)))
              ((d.id, pp ++ [C.children.length]) :: M) (emitList cs) := by
        simp only [insertList, h1]
      rw [hstep, h2]
      have htree : modifyAt
            (modifyAt T pp (pushChild (.mk i p iseg pseg .slice (some d) d.sliceName .nil)))
            (pp ++ [C.children.length]) (appendChildren cs)
          = modifyAt T pp (pushChild (.mk i p iseg pseg .slice (some d) d.sliceName cs)) := by
        rw [modifyAt_snoc, modifyAt_modifyAt]
        apply modifyAt_congr_at T pp C _ _ hC
        show (pushChild (.mk i p iseg pseg .slice (some d) d.sliceName .nil) C).withChildren
            (((pushChild (.mk i p iseg pseg .slice (some d) d.sliceName .nil) C).children).modifyIdx
              C.children.length (appendChildren cs))
          = pushChild (.mk i p iseg pseg .slice (some d) d.sliceName cs) C
        rw [children_pushChild, nlModifyIdx_push_len]
        simp only [pushChild, withChildren_withChildren]
        rfl
      have hregs : regsRevList cs (pp ++ [C.children.length]) 0
            ++ ((d.id, pp ++ [C.children.length]) :: M)
          = regsRevNode (.mk i p iseg pseg .slice (some d) d.sliceName cs)
              (pp ++ [C.children.length]) ++ M := by
        rw [regsRevNode_nonsliceable i p iseg pseg .slice (some d) d.sliceName cs
          (pp ++ [C.children.length]) rfl]
        rw [hdid]
        simp
      rw [htree, hregs]
    · subst hnt
      subst hdefn
      subst hsn
      obtain ⟨d, hcs, tl, hcseq, hdid, hdpath, htn, hwc, _, hnil⟩ :=
        wfContainerB_inv i p iseg pseg .resliced cs false hcont
      subst hcseq
      have htl := hnil rfl
      subst htl
      have hnsl : isSliceableType (toNodeType d) = true := by rw [htn]; rfl
      have hshell : createNode d false = .mk i p iseg pseg .resliced none none
          (.cons (.mk i p iseg pseg .headslice (some d) none .nil) .nil) := by
        rw [createNode_sliceable d hnsl]
        simp [hdid, hdpath, htn, makeIdSegments, makePathSegments, hiseg, hpseg]
      have hemit : emitNode (.mk i p iseg pseg .resliced none none
            (.cons (.mk i p iseg pseg .headslice (some d) none hcs) .nil))
          = d :: (emitList hcs ++ ([] : List ElementDefinition)) := by
        rw [emitNode_nodefn i p iseg pseg .resliced none none _ rfl, emitList_cons,
          emitNode_defn i p iseg pseg .headslice d none hcs rfl]
        rfl
      have h1 : insertOne T M d
          = some (modifyAt T pp (pushChild (createNode d false)),
            (d.id, pp ++ [C.children.length]) :: M) :=
        insertOne_colon T M d cid sn2 ss lastSeg pp C (by rw [hdid]; exact hidseg) hsegOK
          hsplit hss hlastc hmap hC hsl
      rw [hshell] at h1
      have hmap1 : mapGet ((d.id, pp ++ [C.children.length]) :: M) i
          = some (pp ++ [C.children.length]) := by
        simp [mapGet, hdid]
      have hg1 : getAt (modifyAt T pp (pushChild (.mk i p iseg pseg .resliced none none
            (.cons (.mk i p iseg pseg .headslice (some d) none .nil) .nil)))) pp
          = some (pushChild (.mk i p iseg pseg .resliced none none
            (.cons (.mk i p iseg pseg .headslice (some d) none .nil) .nil)) C) :=
        getAt_modifyAt_self T pp C _ hC
      have hshlQ : getAt (modifyAt T pp (pushChild (.mk i p iseg pseg .resliced none none
            (.cons (.mk i p iseg pseg .headslice (some d) none .nil) .nil))))
            (pp ++ [C.children.length])
          = some (.mk i p iseg pseg .resliced none none
            (.cons (.mk i p iseg pseg .headslice (some d) none .nil) .nil)) := by
        rw [getAt_snoc]
        simp only [hg1]
        rw [children_pushChild]
        exact nlGet_push_len C.children _
      have hctx1 : attachCtx (modifyAt T pp (pushChild (.mk i p iseg pseg .resliced none none
            (.cons (.mk i p iseg pseg .headslice (some d) none .nil) .nil))))
          (pp ++ [C.children.length]) ((pp ++ [C.children.length]) ++ [0]) 0 :=
        Or.inr ⟨_, .mk i p iseg pseg .headslice (some d) none .nil, .nil, hshlQ, rfl,
          rfl, rfl, rfl⟩
      have h2 := insChildren hcs i
        (modifyAt T pp (pushChild (.mk i p iseg pseg .resliced none none
          (.cons (.mk i p iseg pseg .headslice (some d) none .nil) .nil))))
        ((d.id, pp ++ [C.children.length]) :: M)
        (pp ++ [C.children.length]) ((pp ++ [C.children.length]) ++ [0]) 0 hwc hmap1 hctx1
      rw [hemit]
      have hstep : insertList T M (d :: (emitList hcs ++ ([] : List ElementDefinition)))
          = insertList
              (modifyAt T pp (pushChild (.mk i p iseg pseg .resliced none none
                (.cons (.mk i p iseg pseg .headslice (some d) none .nil) .nil))))
              ((d.id, pp ++ [C.children.length]) :: M)
              (emitList hcs ++ ([] : List ElementDefinition)) := by
        simp only [insertList, h1]
      rw [hstep]
      rw [insertList_append _ _ _ _ _ _ h2]
      have hfin : insertList
            (modifyAt (modifyAt T pp (pushChild (.mk i p iseg pseg .resliced none none
              (.cons (.mk i p iseg pseg .headslice (some d) none .nil) .nil))))
              ((pp ++ [C.children.length]) ++ [0]) (appendChildren hcs))
            (regsRevList hcs ((pp ++ [C.children.length]) ++ [0]) 0
              ++ ((d.id, pp ++ [C.children.length]) :: M))
            ([] : List ElementDefinition)
          = some (modifyAt (modifyAt T pp (pushChild (.mk i p iseg pseg .resliced none none
              (.cons (.mk i p iseg pseg .headslice (some d) none .nil) .nil))))
              ((pp ++ [C.children.length]) ++ [0]) (appendChildren hcs),
            regsRevList hcs ((pp ++ [C.children.length]) ++ [0]) 0
              ++ ((d.id, pp ++ [C.children.length]) :: M)) := rfl
      rw [hfin]
      have htree : modifyAt (modifyAt T pp (pushChild (.mk i p iseg pseg .resliced none none
              (.cons (.mk i p iseg pseg .headslice (some d) none .nil) .nil))))
            ((pp ++ [C.children.length]) ++ [0]) (appendChildren hcs)
          = modifyAt T pp (pushChild (.mk i p iseg pseg .resliced none none
            (.cons (.mk i p iseg pseg .headslice (some d) none hcs) .nil))) := by
        rw [modifyAt_snoc _ (pp ++ [C.children.length]) 0]
        rw [modifyAt_snoc _ pp C.children.length]
        rw [modifyAt_modifyAt]
        apply modifyAt_congr_at T pp C _ _ hC
        simp only [children_pushChild]
        rw [nlModifyIdx_push_len]
        simp only [pushChild, withChildren_withChildren]
        rfl
      have hregs : regsRevList hcs ((pp ++ [C.children.length]) ++ [0]) 0
            ++ ((d.id, pp ++ [C.children.length]) :: M)
          = regsRevNode (.mk i p iseg pseg .resliced none none
              (.cons (.mk i p iseg pseg .headslice (some d) none hcs) .nil))
              (pp ++ [C.children.length]) ++ M := by
        rw [regsRevNode_sliceable i p iseg pseg .resliced none none _ .nil
          (pp ++ [C.children.length]) rfl]
        rw [hdid]
        simp [FhirTreeNode.children, regsRevList]
      rw [htree, hregs]

theorem insChildren : (cs : NodeList) → (pid : Str) → (T : FhirTreeNode) → (M : IdMap) →
    (pp q : List Nat) → (k : Nat) →
    wfChildrenB pid cs = true →
    mapGet M pid = some pp →
    attachCtx T pp q k →
    insertList T M (emitList cs)
      = some (modifyAt T q (appendChildren cs), regsRevList cs q k ++ M)
  | .nil, pid, T, M, pp, q, k, hwf, hmap, hctx => by
    have h1 : modifyAt T q (appendChildren .nil) = T := by
      have hpt : ∀ x : FhirTreeNode, appendChildren .nil x = x := fun x => by
        simp [appendChildren, nlAppend_nil, withChildren_children]
      rw [modifyAt_congr T q _ _ hpt, modifyAt_id]
    simp [insertList, h1, regsRevList]
  | .cons c tl, pid, T, M, pp, q, k, hwf, hmap, hctx => by
    obtain ⟨h1, h2⟩ := wfChildrenB_cons pid c tl hwf
    have hc := insDot c pid T M pp q k h1 hmap hctx
    rw [emitList_cons, insertList_append _ _ _ _ _ _ hc]
    have hmap2 : mapGet (regsRevNode c (q ++ [k]) ++ M) pid = some pp := by
      rw [mapGet_append_longer]
      · exact hmap
      · intro kv hm
        have hlen := regsLen_dot c pid (q ++ [k]) h1 kv hm
        have hlt := dotExtends_length pid c.id (wfDotChildB_dotExtends pid c h1)
        omega
    have hctx2 := attachCtx_push T pp q k c hctx
    have ht := insChildren tl pid (modifyAt T q (pushChild c))
      (regsRevNode c (q ++ [k]) ++ M) pp q (k + 1) h2 hmap2 hctx2
    rw [ht]
    have htree : modifyAt (modifyAt T q (pushChild c)) q (appendChildren tl)
        = modifyAt T q (appendChildren (.cons c tl)) := by
      rw [modifyAt_modifyAt]
      apply modifyAt_congr T q
      intro x
      simp [appendChildren, pushChild, children_withChildren, withChildren_withChildren,
        nlAppend_push]
    have hregs : regsRevList tl q (k + 1) ++ (regsRevNode c (q ++ [k]) ++ M)
        = regsRevList (.cons c tl) q k ++ M := by
      have hr : regsRevList (.cons c tl) q k
          = regsRevList tl q (k + 1) ++ regsRevNode c (q ++ [k]) := rfl
      rw [hr, List.append_assoc]
    rw [htree, hregs]

theorem insSlices : (tl : NodeList) → (cid : Str) → (ss : List Str) → (lastSeg : Str) →
    (T : FhirTreeNode) → (M : IdMap) → (pp : List Nat) → (C : FhirTreeNode) →
    wfSlicesB cid tl = true →
    splitDots cid = ss ++ [lastSeg] → ss ≠ [] → (':' : Char) ∉ lastSeg →
    mapGet M cid = some pp →
    getAt T pp = some C → isNodeSliceable C = true →
    insertList T M (emitList tl)
      = some (modifyAt T pp (appendChildren tl), regsRevList tl pp C.children.length ++ M)
  | .nil, cid, ss, lastSeg, T, M, pp, C, hwf, hsplit, hss, hlastc, hmap, hC, hsl => by
    have h1 : modifyAt T pp (appendChildren .nil) = T := by
      have hpt : ∀ x : FhirTreeNode, appendChildren .nil x = x := fun x => by
        simp [appendChildren, nlAppend_nil, withChildren_children]
      rw [modifyAt_congr T pp _ _ hpt, modifyAt_id]
    simp [insertList, h1, regsRevList]
  | .cons c tl, cid, ss, lastSeg, T, M, pp, C, hwf, hsplit, hss, hlastc, hmap, hC, hsl => by
    obtain ⟨h1, h2⟩ := wfSlicesB_cons cid c tl hwf
    have hc := insSlice c cid ss lastSeg T M pp C h1 hsplit hss hlastc hmap hC hsl
    rw [emitList_cons, insertList_append _ _ _ _ _ _ hc]
    have hmap2 : mapGet (regsRevNode c (pp ++ [C.children.length]) ++ M) cid = some pp := by
      rw [mapGet_append_longer]
      · exact hmap
      · intro kv hm
        have hlen := regsLen_slice c cid (pp ++ [C.children.length]) h1 kv hm
        have hlt := colonExtends_length cid c.id (wfSliceB_colonExtends cid c h1)
        omega
    have hC2 : getAt (modifyAt T pp (pushChild c)) pp = some (pushChild c C) :=
      getAt_modifyAt_self T pp C _ hC
    have hsl2 : isNodeSliceable (pushChild c C) = true := by
      rw [sliceable_pushChild]
      exact hsl
    have ht := insSlices tl cid ss lastSeg (modifyAt T pp (pushChild c))
      (regsRevNode c (pp ++ [C.children.length]) ++ M) pp (pushChild c C)
      h2 hsplit hss hlastc hmap2 hC2 hsl2
    rw [ht]
    have hlen2 : (pushChild c C).children.length = C.children.length + 1 := by
      rw [children_pushChild, nlLength_push]
    rw [hlen2]
    have htree : modifyAt (modifyAt T pp (pushChild c)) pp (appendChildren tl)
        = modifyAt T pp (appendChildren (.cons c tl)) := by
      rw [modifyAt_modifyAt]
      apply modifyAt_congr T pp
      intro x
      simp [appendChildren, pushChild, children_withChildren, withChildren_withChildren,
        nlAppend_push]
    have hregs : regsRevList tl pp (C.children.length + 1)
          ++ (regsRevNode c (pp ++ [C.children.length]) ++ M)
        = regsRevList (.cons c tl) pp C.children.length ++ M := by
      have hr : regsRevList (.cons c tl) pp C.children.length
          = regsRevList tl pp (C.children.length + 1)
            ++ regsRevNode c (pp ++ [C.children.length]) := rfl
      rw [hr, List.append_assoc]
    rw [htree, hregs]
end

/-- Claim C1: for every element sequence E that is the flatten of a
legal element tree t (wfRootB), toTree E succeeds, rebuilds t exactly,
and flattening the rebuilt tree returns E element-for-element in the
same order. -/
theorem C1_toTree_fromTree_roundtrip (t : FhirTreeNode) (E : List ElementDefinition)
    (hwf : wfRootB t = true) (hE : fromTree t = some E) :
    toTree E = some t ∧ (toTree E).bind fromTree = some E := by
  cases t with
  | mk i p iseg pseg nt defn sn cs =>
    obtain ⟨hnt, hiseg, hpseg, d, hdefn, hdid, hdpath, hsn, hwc⟩ :=
      wfRootB_inv i p iseg pseg nt defn sn cs hwf
    subst hnt
    subst hdefn
    have hft : fromTree (.mk i p iseg pseg .element (some d) sn cs)
        = some (d :: emitList cs) := by
      have hrest := fromTree_children cs i hwc
      have hedef : emitsDefinition NodeType.element = true := rfl
      simp only [fromTree, hedef, hrest, if_true]
    have hEeq : E = d :: emitList cs := by
      rw [hft] at hE
      injection hE with h
      exact h.symm
    subst hEeq
    have hroot : createNode d true = .mk i p iseg pseg .element (some d) sn .nil := by
      rw [createNode_force d]
      simp [hdid, hdpath, makeIdSegments, makePathSegments, hiseg, hpseg, ← hsn]
    have hins : insertList (.mk i p iseg pseg .element (some d) sn .nil)
        [((FhirTreeNode.mk i p iseg pseg .element (some d) sn .nil).id, [])] (emitList cs)
        = some (modifyAt (.mk i p iseg pseg .element (some d) sn .nil) []
            (appendChildren cs),
          regsRevList cs [] 0
            ++ [((FhirTreeNode.mk i p iseg pseg .element (some d) sn .nil).id, [])]) :=
      insChildren cs i _ _ [] [] 0 hwc (by simp [mapGet, FhirTreeNode.id])
        (Or.inl ⟨_, rfl, rfl, rfl, rfl⟩)
    have htfin : modifyAt (.mk i p iseg pseg .element (some d) sn .nil) []
        (appendChildren cs) = .mk i p iseg pseg .element (some d) sn cs := rfl
    have htoTree : toTree (d :: emitList cs)
        = some (.mk i p iseg pseg .element (some d) sn cs) := by
      simp only [toTree]
      rw [hroot, hins, htfin]
    refine ⟨htoTree, ?_⟩
    rw [htoTree]
    simpa using hft

/-- Witness for C1 at a concrete three-element tree (the tree toTree
builds from c1Elems is legal, flattens back to c1Elems, and the round
trip reproduces both). -/
theorem C1_witness :
    wfRootB c1WitnessTree = true ∧ fromTree c1WitnessTree = some c1Elems
    ∧ toTree c1Elems = some c1WitnessTree
    ∧ (toTree c1Elems).bind fromTree = some c1Elems := by
  have h1 : wfRootB c1WitnessTree = true := by decide
  have h2 : fromTree c1WitnessTree = some c1Elems := by decide
  have h3 := C1_toTree_fromTree_roundtrip c1WitnessTree c1Elems h1 h2
  exact ⟨h1, h2, h3.1, h3.2⟩

end FSG
